import Mathlib

/-! Cholesky decomposition of splab (cholesky.h / cholesky.cpp).

Shallow embedding of the class template `splab::Cholesky<Type>` and of its
specialisations for complex scalars (the macros `MAINLOOP`, `SOLVE1`, `SOLVE2`).

Conventions of the embedding.

* Scalars are generic.  The real path works over a linearly ordered field `α`,
  the complex path over a field `K` of complex scalars with real component type `α`.
* The scalar primitives whose value the arithmetic does not fix are parameters:
  `sqrt`, and the division `div` (the value of a division by zero is left
  unspecified; theorems that need exact division assume `div x y = x / y` for `y ≠ 0` only).
* `Matrix<Type>(n, n)` allocates a matrix of unspecified contents; these contents are
  the parameter `init`.
* A C++ `for` loop is one of the three loop combinators `forUp`, `forFrom`, `forDown`.
-/

namespace splab

/-! ## Containers -/

/-- Modelled from the spec: the dense matrix container `Matrix<Type>` of matrix.h, which is
not among the sources: integer dimensions `rows()`, `cols()` and two-dimensional indexed
access.  Only the entries `get i j` with `i < rows` and `j < cols` belong to the matrix. -/
structure Mat (α : Type) where
  rows : ℕ
  cols : ℕ
  get : ℕ → ℕ → α

/-- Modelled from the spec: the container `Vector<Type>`: `dim()` and indexed access.  Only
the entries `get i` with `i < dim` belong to the vector. -/
structure Vec (α : Type) where
  dim : ℕ
  get : ℕ → α

/-- Element mutation `M[i][j] = v`. -/
def Mat.set {α : Type} (M : Mat α) (i j : ℕ) (v : α) : Mat α :=
  { rows := M.rows, cols := M.cols, get := fun a b => if a = i ∧ b = j then v else M.get a b }

/-- Element mutation `x[i] = v`. -/
def Vec.set {α : Type} (x : Vec α) (i : ℕ) (v : α) : Vec α :=
  { dim := x.dim, get := fun a => if a = i then v else x.get a }

/-- Default constructor `Matrix<Type>()`: the empty matrix. -/
def Mat.empty {α : Type} [Zero α] : Mat α :=
  { rows := 0, cols := 0, get := fun _ _ => 0 }

/-- Default constructor `Vector<Type>()`: the empty vector. -/
def Vec.empty {α : Type} [Zero α] : Vec α :=
  { dim := 0, get := fun _ => 0 }

/-- Constructor `Matrix<Type>(r, c)`; `init` stands for the unspecified initial contents. -/
def Mat.alloc {α : Type} (r c : ℕ) (init : ℕ → ℕ → α) : Mat α :=
  { rows := r, cols := c, get := init }

/-! ## Loops -/

/-- Loop `for (int i = 0; i < n; ++i) body`. -/
def forUp {σ : Type} : ℕ → (ℕ → σ → σ) → σ → σ
  | 0, _, s => s
  | n + 1, body, s => body n (forUp n body s)

/-- Loop `for (int i = lo; i < hi; ++i) body`. -/
def forFrom {σ : Type} (lo hi : ℕ) (body : ℕ → σ → σ) (s : σ) : σ :=
  forUp (hi - lo) (fun t => body (lo + t)) s

/-- Loop `for (int k = n-1; k >= 0; --k) body`. -/
def forDown {σ : Type} : ℕ → (ℕ → σ → σ) → σ → σ
  | 0, _, s => s
  | n + 1, body, s => forDown n body (body n s)

/-! ## The class `Cholesky<Type>`, generic (real) path -/

/-- Data members of `Cholesky<Type>`: the flag `spd` and the factor `L`. -/
structure Cholesky (α : Type) where
  spd : Bool
  L : Mat α

/-- Constructor `Cholesky() : spd(true)`; the factor is default-constructed (empty). -/
def Cholesky.new {α : Type} [Zero α] : Cholesky α :=
  { spd := true, L := Mat.empty }

/-- Member `isSpd()`. -/
def Cholesky.isSpd {α : Type} (c : Cholesky α) : Bool := c.spd

/-- Member `getL()`. -/
def Cholesky.getL {α : Type} (c : Cholesky α) : Mat α := c.L

/-- State of the `k` loop of `dec`: the accumulator `d`, the flag and the factor. -/
structure RowState (α β : Type) where
  d : α
  spd : Bool
  L : Mat β

/-- One pass of the `k` loop of `dec` (cholesky.h lines 195-203), row `j`. -/
def decK {α : Type} [LinearOrderedField α] (div : α → α → α) (A : Mat α) (j k : ℕ)
    (st : RowState α α) : RowState α α :=
  let s := forUp k (fun i s => s + st.L.get k i * st.L.get j i) 0
  let s := div (A.get j k - s) (st.L.get k k)
  { d := st.d + s * s
    spd := st.spd && decide (A.get k j = A.get j k)
    L := st.L.set j k s }

/-- One pass of the main loop of `dec` (cholesky.h lines 192-211), row `j`. -/
def decRow {α : Type} [LinearOrderedField α] (sqrt : α → α) (div : α → α → α) (A : Mat α)
    (n j : ℕ) (c : Cholesky α) : Cholesky α :=
  let st := forUp j (decK div A j) { d := 0, spd := c.spd, L := c.L }
  let d := A.get j j - st.d
  let spd := st.spd && decide (d > 0)
  let L := st.L.set j j (sqrt (if d > 0 then d else 0))
  { spd := spd, L := forFrom (j + 1) n (fun k L => L.set j k 0) L }

/-- Member `dec(A)` of the generic template (cholesky.h lines 180-212). -/
def Cholesky.dec {α : Type} [LinearOrderedField α] (sqrt : α → α) (div : α → α → α)
    (init : ℕ → ℕ → α) (c : Cholesky α) (A : Mat α) : Cholesky α :=
  let m := A.rows
  let n := A.cols
  let spd := decide (m = n)
  if !spd then { spd := spd, L := c.L }
  else forUp n (decRow sqrt div A n) { spd := spd, L := Mat.alloc n n init }

/-- Forward phase of `solve` (cholesky.h lines 233-239): solve `L*y = b` in place. -/
def forwardSub {α : Type} [Field α] (div : α → α → α) (L : Mat α) (n : ℕ) (x : Vec α) : Vec α :=
  forUp n (fun k x =>
    let x := forUp k (fun i x => x.set k (x.get k - x.get i * L.get k i)) x
    x.set k (div (x.get k) (L.get k k))) x

/-- Backward phase of `solve` (cholesky.h lines 242-248): solve `L'*x = y` in place. -/
def backSub {α : Type} [Field α] (div : α → α → α) (L : Mat α) (n : ℕ) (x : Vec α) : Vec α :=
  forDown n (fun k x =>
    let x := forFrom (k + 1) n (fun i x => x.set k (x.get k - x.get i * L.get i k)) x
    x.set k (div (x.get k) (L.get k k))) x

/-- Member `solve(const Vector<Type>&)` of the generic template (cholesky.h lines 225-251). -/
def Cholesky.solve {α : Type} [Field α] (div : α → α → α) (c : Cholesky α) (b : Vec α) : Vec α :=
  let n := c.L.rows
  if b.dim ≠ n then Vec.empty
  else backSub div c.L n (forwardSub div c.L n b)

/-- Forward phase of the matrix `solve` (cholesky.h lines 266-273). -/
def forwardSubM {α : Type} [Field α] (div : α → α → α) (L : Mat α) (n nx : ℕ) (X : Mat α) :
    Mat α :=
  forUp nx (fun j X =>
    forUp n (fun k X =>
      let X := forUp k (fun i X => X.set k j (X.get k j - X.get i j * L.get k i)) X
      X.set k j (div (X.get k j) (L.get k k))) X) X

/-- Backward phase of the matrix `solve` (cholesky.h lines 276-283). -/
def backSubM {α : Type} [Field α] (div : α → α → α) (L : Mat α) (n nx : ℕ) (X : Mat α) :
    Mat α :=
  forUp nx (fun j X =>
    forDown n (fun k X =>
      let X := forFrom (k + 1) n (fun i X => X.set k j (X.get k j - X.get i j * L.get i k)) X
      X.set k j (div (X.get k j) (L.get k k))) X) X

/-- Member `solve(const Matrix<Type>&)` of the generic template (cholesky.h lines 257-286). -/
def Cholesky.solveM {α : Type} [Field α] (div : α → α → α) (c : Cholesky α) (B : Mat α) :
    Mat α :=
  let n := c.L.rows
  if B.rows ≠ n then Mat.empty
  else
    let nx := B.cols
    backSubM div c.L n nx (forwardSubM div c.L n nx B)

/-! ## Specialisations for complex scalars (cholesky.cpp, macros of cholesky.h) -/

/-- Primitives of the complex scalar type `complex<T>` used by the macros: `sqrt` on `T`,
complex division, `real`, `imag`, `norm` (squared magnitude), `conj`, and the conversion of
a real into a complex number that the assignment `L[j][j] = sqrt(...)` performs. -/
structure ComplexOps (α K : Type) where
  sqrt : α → α
  div : K → K → K
  real : K → α
  imag : K → α
  norm : K → α
  conj : K → K
  ofReal : α → K

/-- One pass of the `k` loop of `MAINLOOP` (cholesky.h lines 71-79), row `j`. -/
def mainloopK {α K : Type} [LinearOrderedField α] [Field K] [DecidableEq K]
    (O : ComplexOps α K) (A : Mat K) (j k : ℕ) (st : RowState α K) : RowState α K :=
  let s := forUp k (fun i s => s + st.L.get k i * O.conj (st.L.get j i)) 0
  let s := O.div (A.get j k - s) (st.L.get k k)
  { d := st.d + O.norm s
    spd := st.spd && decide (A.get k j = O.conj (A.get j k))
    L := st.L.set j k s }

/-- One pass of the `j` loop of `MAINLOOP` (cholesky.h lines 66-87). -/
def mainloopRow {α K : Type} [LinearOrderedField α] [Field K] [DecidableEq K]
    (O : ComplexOps α K) (A : Mat K) (j : ℕ) (c : Cholesky K) : Cholesky K :=
  let spd := c.spd && decide (O.imag (A.get j j) = 0)
  let st := forUp j (mainloopK O A j) { d := 0, spd := spd, L := c.L }
  let d := O.real (A.get j j) - st.d
  let spd := st.spd && decide (d > 0)
  let L := st.L.set j j (O.ofReal (O.sqrt (if d > 0 then d else 0)))
  { spd := spd, L := forFrom (j + 1) A.rows (fun k L => L.set j k 0) L }

/-- Macro `MAINLOOP` (cholesky.h lines 56-88), run on the members `spd` and `L`. -/
def MAINLOOP {α K : Type} [LinearOrderedField α] [Field K] [DecidableEq K]
    (O : ComplexOps α K) (A : Mat K) (c : Cholesky K) : Cholesky K :=
  let m := A.rows
  let n := A.cols
  let spd := decide (m = n)
  if !spd then { spd := spd, L := c.L }
  else forUp A.rows (mainloopRow O A) { spd := spd, L := c.L }

/-- Specialised member `Cholesky<complex<T> >::dec` (cholesky.cpp lines 8-33): the factor is
allocated with `A.cols()` rows and columns, then `MAINLOOP` runs. -/
def Cholesky.decC {α K : Type} [LinearOrderedField α] [Field K] [DecidableEq K]
    (O : ComplexOps α K) (init : ℕ → ℕ → K) (c : Cholesky K) (A : Mat K) : Cholesky K :=
  MAINLOOP O A { spd := c.spd, L := Mat.alloc A.cols A.cols init }

/-- Macro `SOLVE1` (cholesky.h lines 95-114). -/
def SOLVE1 {α K : Type} [Field K] (O : ComplexOps α K) (L : Mat K) (n : ℕ) (x : Vec K) : Vec K :=
  let x := forUp n (fun k x =>
    let x := forUp k (fun i x => x.set k (x.get k - x.get i * L.get k i)) x
    x.set k (O.div (x.get k) (L.get k k))) x
  forDown n (fun k x =>
    let x := forFrom (k + 1) n (fun i x => x.set k (x.get k - x.get i * O.conj (L.get i k))) x
    x.set k (O.div (x.get k) (L.get k k))) x

/-- Specialised member `Cholesky<complex<T> >::solve(const Vector&)` (cholesky.cpp 39-67). -/
def Cholesky.solveC {α K : Type} [Field K] (O : ComplexOps α K) (c : Cholesky K) (b : Vec K) :
    Vec K :=
  let n := c.L.rows
  if b.dim ≠ n then Vec.empty
  else SOLVE1 O c.L n b

/-- Macro `SOLVE2` (cholesky.h lines 121-143). -/
def SOLVE2 {α K : Type} [Field K] (O : ComplexOps α K) (L : Mat K) (n : ℕ) (B X : Mat K) :
    Mat K :=
  let nx := B.cols
  let X := forUp nx (fun j X =>
    forUp n (fun k X =>
      let X := forUp k (fun i X => X.set k j (X.get k j - X.get i j * L.get k i)) X
      X.set k j (O.div (X.get k j) (L.get k k))) X) X
  forUp nx (fun j X =>
    forDown n (fun k X =>
      let X := forFrom (k + 1) n
        (fun i X => X.set k j (X.get k j - X.get i j * O.conj (L.get i k))) X
      X.set k j (O.div (X.get k j) (L.get k k))) X) X

/-- Specialised member `Cholesky<complex<T> >::solve(const Matrix&)` (cholesky.cpp 73-101). -/
def Cholesky.solveMC {α K : Type} [Field K] (O : ComplexOps α K) (c : Cholesky K) (B : Mat K) :
    Mat K :=
  let n := c.L.rows
  if B.rows ≠ n then Mat.empty
  else SOLVE2 O c.L n B B

/-- The complex scalars `ℂ` over the reals: `real`, `imag`, `norm` (the squared magnitude
of `std::norm`), `conj` and the conversion are those of `ℂ`; `sqrt` and `div` stay
parameters. -/
def complexOps (sqrt : ℝ → ℝ) (div : ℂ → ℂ → ℂ) : ComplexOps ℝ ℂ :=
  { sqrt := sqrt
    div := div
    real := Complex.re
    imag := Complex.im
    norm := fun z => Complex.normSq z
    conj := fun z => (starRingEnd ℂ) z
    ofReal := fun x => (x : ℂ) }

/-! ## Vocabulary of the statements -/

/-- The pivot of row `j` for the factor `L`: the value `d = A[j][j] - Σ_{k<j} L[j][k]²` that
`dec` tests and of which it takes the square root (cholesky.h lines 205-208). -/
def pivot {α : Type} [Field α] (A L : Mat α) (j : ℕ) : α :=
  A.get j j - ∑ k in Finset.range j, L.get j k * L.get j k

/-- Row `j` of `L` obeys the recursion of `dec`: the entries left of the diagonal, the
diagonal entry, and the zeros right of the diagonal up to column `n`. -/
def RowOK {α : Type} [LinearOrderedField α] (sqrt : α → α) (div : α → α → α) (A L : Mat α)
    (n j : ℕ) : Prop :=
  (∀ k, k < j → L.get j k =
      div (A.get j k - ∑ i in Finset.range k, L.get k i * L.get j i) (L.get k k)) ∧
  L.get j j = sqrt (if pivot A L j > 0 then pivot A L j else 0) ∧
  (∀ k, j < k → k < n → L.get j k = 0)

/-- The pivot of row `j` in `MAINLOOP`: `d = real(A[j][j]) - Σ_{k<j} norm(L[j][k])`
(cholesky.h lines 77 and 81). -/
def cpivot {α K : Type} [Field α] (O : ComplexOps α K) (A L : Mat K) (j : ℕ) : α :=
  O.real (A.get j j) - ∑ k in Finset.range j, O.norm (L.get j k)

/-- Row `j` of `L` obeys the recursion of `MAINLOOP`. -/
def CRowOK {α K : Type} [LinearOrderedField α] [Field K] (O : ComplexOps α K) (A L : Mat K)
    (n j : ℕ) : Prop :=
  (∀ k, k < j → L.get j k =
      O.div (A.get j k - ∑ i in Finset.range k, L.get k i * O.conj (L.get j i)) (L.get k k)) ∧
  L.get j j = O.ofReal (O.sqrt (if cpivot O A L j > 0 then cpivot O A L j else 0)) ∧
  (∀ k, j < k → k < n → L.get j k = 0)

/-- The entries of a library matrix as a Mathlib matrix of the given shape. -/
def Mat.toMatrix {α : Type} (m n : ℕ) (M : Mat α) : Matrix (Fin m) (Fin n) α :=
  Matrix.of fun i j => M.get i.val j.val

/-- A Mathlib matrix as a library matrix; entries out of range are `0`. -/
def Mat.ofMatrix {α : Type} [Zero α] {m n : ℕ} (A : Matrix (Fin m) (Fin n) α) : Mat α :=
  { rows := m, cols := n
    get := fun i j => if h : i < m ∧ j < n then A ⟨i, h.1⟩ ⟨j, h.2⟩ else 0 }

/-- Column `j` of a matrix, as a vector of length `rows()`. -/
def Mat.col {α : Type} (M : Mat α) (j : ℕ) : Vec α :=
  { dim := M.rows, get := fun i => M.get i j }

/-- The matrix with `f` applied to every entry (the embedding of real data in `ℂ`). -/
def Mat.map {α β : Type} (f : α → β) (M : Mat α) : Mat β :=
  { rows := M.rows, cols := M.cols, get := fun i j => f (M.get i j) }

/-- The vector with `f` applied to every entry. -/
def Vec.map {α β : Type} (f : α → β) (x : Vec α) : Vec β :=
  { dim := x.dim, get := fun i => f (x.get i) }

/-- Two matrices are the same container value: same dimensions and same entries in range. -/
def Mat.Same {α : Type} (M N : Mat α) : Prop :=
  M.rows = N.rows ∧ M.cols = N.cols ∧ ∀ i j, i < M.rows → j < M.cols → M.get i j = N.get i j

/-- Two decomposition objects are in the same state: same flag and same factor. -/
def Cholesky.Same {α : Type} (c d : Cholesky α) : Prop :=
  c.spd = d.spd ∧ c.L.Same d.L

/-- The entries of a library vector as a function on `Fin n`. -/
def Vec.toFun {α : Type} (n : ℕ) (x : Vec α) : Fin n → α := fun i => x.get i.val

/-- A function on `Fin n` as a library vector; entries out of range are `0`. -/
def Vec.ofFun {α : Type} [Zero α] {n : ℕ} (b : Fin n → α) : Vec α :=
  { dim := n, get := fun i => if h : i < n then b ⟨i, h⟩ else 0 }

/-- Exact division: `div x y` is the quotient whenever `y ≠ 0`; nothing is assumed on a
division by zero. -/
def ExactDiv {K : Type} [Field K] (div : K → K → K) : Prop := ∀ x y, y ≠ 0 → div x y = x / y

/-! ## Example inputs -/

/-- The matrix `[[4,2],[2,3]]` of the concrete scenario. -/
def exA {α : Type} [Field α] : Mat α :=
  { rows := 2, cols := 2
    get := fun i j => if i = 0 ∧ j = 0 then 4 else if i = 1 ∧ j = 1 then 3 else 2 }

/-- The matrix `[[1,2],[2,1]]`, symmetric and not positive definite. -/
def exB {α : Type} [Field α] : Mat α :=
  { rows := 2, cols := 2
    get := fun i j => if i = j then 1 else 2 }

/-- The matrix `[[1,2],[3,4]]`, which is not symmetric. -/
def exN {α : Type} [Field α] : Mat α :=
  { rows := 2, cols := 2
    get := fun i j => if i = 0 ∧ j = 0 then 1 else if i = 0 ∧ j = 1 then 2
      else if i = 1 ∧ j = 0 then 3 else 4 }

/-- The matrix `[[4,7],[2,3]]`: the lower triangle of `exA`, another entry above it. -/
def exU {α : Type} [Field α] : Mat α :=
  { rows := 2, cols := 2
    get := fun i j => if i = 0 ∧ j = 0 then 4 else if i = 0 ∧ j = 1 then 7
      else if i = 1 ∧ j = 0 then 2 else 3 }

/-- The lower triangular matrix `[[2,0],[1,2]]`. -/
def exL {α : Type} [Field α] : Mat α :=
  { rows := 2, cols := 2
    get := fun i j => if i = 0 ∧ j = 0 then 2 else if i = 0 ∧ j = 1 then 0
      else if i = 1 ∧ j = 0 then 1 else 2 }

/-- The matrix `[[4,2],[2,5]]`, the product of `exL` and its transpose. -/
def exP {α : Type} [Field α] : Mat α :=
  { rows := 2, cols := 2
    get := fun i j => if i = 0 ∧ j = 0 then 4 else if i = 1 ∧ j = 1 then 5 else 2 }

/-- The lower triangular complex matrix `[[1,0],[i,2]]`, of real diagonal. -/
def exLC : Mat ℂ :=
  { rows := 2, cols := 2
    get := fun i j => if i = 0 ∧ j = 0 then 1 else if i = 0 ∧ j = 1 then 0
      else if i = 1 ∧ j = 0 then Complex.I else 2 }

/-- A `2 × 3` matrix. -/
def exR {α : Type} [Field α] : Mat α :=
  { rows := 2, cols := 3, get := fun _ _ => 1 }

/-- The Hermitian positive definite matrix `[[1,-i,1],[i,2,1+i],[1,1-i,3]]`, which is
`M*Mᴴ` for `M = [[1,0,0],[i,1,0],[1,1,1]]`. -/
def exH : Mat ℂ :=
  { rows := 3, cols := 3
    get := fun i j =>
      if i = 0 ∧ j = 0 then 1 else if i = 0 ∧ j = 1 then -Complex.I
      else if i = 0 ∧ j = 2 then 1
      else if i = 1 ∧ j = 0 then Complex.I else if i = 1 ∧ j = 1 then 2
      else if i = 1 ∧ j = 2 then 1 + Complex.I
      else if i = 2 ∧ j = 0 then 1 else if i = 2 ∧ j = 1 then 1 - Complex.I else 3 }

/-- The right-hand side `[6,5]` of the concrete scenario. -/
def exb {α : Type} [Field α] : Vec α :=
  { dim := 2, get := fun i => if i = 0 then 6 else 5 }

/-- Exact square root: `sqrt x` is the real square root whenever `0 ≤ x`; nothing is
assumed on the square root of a negative number. -/
def ExactSqrt (sqrt : ℝ → ℝ) : Prop := ∀ x, 0 ≤ x → sqrt x = Real.sqrt x

/-- The matrix `[[0,1],[1,1]]`, whose first pivot is zero. -/
def exZ {α : Type} [Field α] : Mat α :=
  { rows := 2, cols := 2
    get := fun i j => if i = 0 ∧ j = 0 then 0 else 1 }

/-! ## Loop invariants of `dec` -/

section invariants
variable {α : Type} [LinearOrderedField α]

/-- Invariant of the `k` loop of `dec`, after the passes `0, ..., k-1` on row `j`. -/
structure KInv (div : α → α → α) (A : Mat α) (j : ℕ) (s0 : RowState α α) (k : ℕ)
    (R : RowState α α) : Prop where
  rows : R.L.rows = s0.L.rows
  cols : R.L.cols = s0.L.cols
  frame : ∀ r c, r ≠ j ∨ k ≤ c → R.L.get r c = s0.L.get r c
  entry : ∀ c, c < k → R.L.get j c =
    div (A.get j c - ∑ i in Finset.range c, s0.L.get c i * R.L.get j i) (s0.L.get c c)
  acc : R.d = s0.d + ∑ c in Finset.range k, R.L.get j c * R.L.get j c
  flag : R.spd = true ↔ s0.spd = true ∧ ∀ c, c < k → A.get c j = A.get j c

/-- Effect of one pass of the main loop of `dec` on row `j`. -/
structure RowInv (sqrt : α → α) (div : α → α → α) (A : Mat α) (n j : ℕ)
    (c c' : Cholesky α) : Prop where
  rows : c'.L.rows = c.L.rows
  cols : c'.L.cols = c.L.cols
  frame : ∀ r k, r ≠ j → c'.L.get r k = c.L.get r k
  entry : ∀ k, k < j → c'.L.get j k =
    div (A.get j k - ∑ i in Finset.range k, c.L.get k i * c'.L.get j i) (c.L.get k k)
  diag : c'.L.get j j = sqrt (if pivot A c'.L j > 0 then pivot A c'.L j else 0)
  upper : ∀ k, j < k → k < n → c'.L.get j k = 0
  flag : c'.spd = true ↔
    c.spd = true ∧ (∀ k, k < j → A.get k j = A.get j k) ∧ 0 < pivot A c'.L j

/-- Invariant of the main loop of `dec`, after the passes `0, ..., m-1`. -/
structure DecInv (sqrt : α → α) (div : α → α → α) (A : Mat α) (n : ℕ) (c0 : Cholesky α)
    (m : ℕ) (c : Cholesky α) : Prop where
  rows : c.L.rows = c0.L.rows
  cols : c.L.cols = c0.L.cols
  frame : ∀ r k, m ≤ r → c.L.get r k = c0.L.get r k
  rowOK : ∀ j, j < m → RowOK sqrt div A c.L n j
  flag : c.spd = true ↔
    c0.spd = true ∧ ∀ j, j < m → (∀ k, k < j → A.get k j = A.get j k) ∧ 0 < pivot A c.L j

end invariants

/-! ## Loop invariants of `MAINLOOP` -/

section invariantsC
variable {α K : Type} [LinearOrderedField α] [Field K] [DecidableEq K]

/-- Invariant of the `k` loop of `MAINLOOP`, after the passes `0, ..., k-1` on row `j`. -/
structure KInvC (O : ComplexOps α K) (A : Mat K) (j : ℕ) (s0 : RowState α K) (k : ℕ)
    (R : RowState α K) : Prop where
  rows : R.L.rows = s0.L.rows
  cols : R.L.cols = s0.L.cols
  frame : ∀ r c, r ≠ j ∨ k ≤ c → R.L.get r c = s0.L.get r c
  entry : ∀ c, c < k → R.L.get j c =
    O.div (A.get j c - ∑ i in Finset.range c, s0.L.get c i * O.conj (R.L.get j i))
      (s0.L.get c c)
  acc : R.d = s0.d + ∑ c in Finset.range k, O.norm (R.L.get j c)
  flag : R.spd = true ↔ s0.spd = true ∧ ∀ c, c < k → A.get c j = O.conj (A.get j c)

/-- Effect of one pass of the `j` loop of `MAINLOOP` on row `j`. -/
structure RowInvC (O : ComplexOps α K) (A : Mat K) (n j : ℕ) (c c' : Cholesky K) : Prop where
  rows : c'.L.rows = c.L.rows
  cols : c'.L.cols = c.L.cols
  frame : ∀ r k, r ≠ j → c'.L.get r k = c.L.get r k
  entry : ∀ k, k < j → c'.L.get j k =
    O.div (A.get j k - ∑ i in Finset.range k, c.L.get k i * O.conj (c'.L.get j i))
      (c.L.get k k)
  diag : c'.L.get j j
    = O.ofReal (O.sqrt (if cpivot O A c'.L j > 0 then cpivot O A c'.L j else 0))
  upper : ∀ k, j < k → k < n → c'.L.get j k = 0
  flag : c'.spd = true ↔
    c.spd = true ∧ O.imag (A.get j j) = 0 ∧ (∀ k, k < j → A.get k j = O.conj (A.get j k)) ∧
      0 < cpivot O A c'.L j

/-- Invariant of the `j` loop of `MAINLOOP`, after the passes `0, ..., m-1`. -/
structure DecInvC (O : ComplexOps α K) (A : Mat K) (n : ℕ) (c0 : Cholesky K) (m : ℕ)
    (c : Cholesky K) : Prop where
  rows : c.L.rows = c0.L.rows
  cols : c.L.cols = c0.L.cols
  frame : ∀ r k, m ≤ r → c.L.get r k = c0.L.get r k
  rowOK : ∀ j, j < m → CRowOK O A c.L n j
  flag : c.spd = true ↔
    c0.spd = true ∧ ∀ j, j < m → O.imag (A.get j j) = 0 ∧
      (∀ k, k < j → A.get k j = O.conj (A.get j k)) ∧ 0 < cpivot O A c.L j

end invariantsC

end splab

open Finset

namespace splab



/-! ## Basic facts on containers and loops -/

section basics
variable {α σ : Type}

@[simp]
theorem Mat.set_rows (M : Mat α) (i j : ℕ) (v : α) : (M.set i j v).rows = M.rows := rfl
@[simp]
theorem Mat.set_cols (M : Mat α) (i j : ℕ) (v : α) : (M.set i j v).cols = M.cols := rfl
theorem Mat.set_get (M : Mat α) (i j : ℕ) (v : α) (a b : ℕ) :
    (M.set i j v).get a b = if a = i ∧ b = j then v else M.get a b := rfl
@[simp]
theorem Mat.set_get_self (M : Mat α) (i j : ℕ) (v : α) : (M.set i j v).get i j = v := by
  simp [Mat.set_get]
theorem Mat.set_get_row (M : Mat α) (i j : ℕ) (v : α) {a : ℕ} (b : ℕ) (h : a ≠ i) :
    (M.set i j v).get a b = M.get a b := by
  simp [Mat.set_get, h]
theorem Mat.set_get_col (M : Mat α) (i j : ℕ) (v : α) (a : ℕ) {b : ℕ} (h : b ≠ j) :
    (M.set i j v).get a b = M.get a b := by
  simp [Mat.set_get, h]

@[simp]
theorem Vec.set_dim (x : Vec α) (i : ℕ) (v : α) : (x.set i v).dim = x.dim := rfl
theorem Vec.get_set (x : Vec α) (i : ℕ) (v : α) (a : ℕ) :
    (x.set i v).get a = if a = i then v else x.get a := rfl
@[simp]
theorem Vec.get_set_self (x : Vec α) (i : ℕ) (v : α) : (x.set i v).get i = v := by
  simp [Vec.get_set]
theorem Vec.get_set_ne (x : Vec α) (i : ℕ) (v : α) {a : ℕ} (h : a ≠ i) :
    (x.set i v).get a = x.get a := by
  simp [Vec.get_set, h]

@[simp]
theorem forUp_zero (body : ℕ → σ → σ) (s : σ) : forUp 0 body s = s := rfl
theorem forUp_succ (n : ℕ) (body : ℕ → σ → σ) (s : σ) :
    forUp (n + 1) body s = body n (forUp n body s) := rfl
@[simp]
theorem forDown_zero (body : ℕ → σ → σ) (s : σ) : forDown 0 body s = s := rfl
theorem forDown_succ (n : ℕ) (body : ℕ → σ → σ) (s : σ) :
    forDown (n + 1) body s = forDown n body (body n s) := rfl

/-- Invariant rule for the ascending loop. -/
theorem forUp_induction (P : ℕ → σ → Prop) (body : ℕ → σ → σ) (s : σ) (n : ℕ)
    (h0 : P 0 s) (hstep : ∀ k t, k < n → P k t → P (k + 1) (body k t)) :
    P n (forUp n body s) := by
  induction n with
  | zero => exact h0
  | succ m ih =>
    rw [forUp_succ]
    exact hstep m _ (Nat.lt_succ_self m)
      (ih (fun k t hk hP => hstep k t (Nat.lt_succ_of_lt hk) hP))

/-- Invariant rule for the bounded ascending loop. -/
theorem forFrom_induction (P : ℕ → σ → Prop) (body : ℕ → σ → σ) (s : σ) (lo hi : ℕ)
    (hle : lo ≤ hi) (h0 : P lo s)
    (hstep : ∀ k t, lo ≤ k → k < hi → P k t → P (k + 1) (body k t)) :
    P hi (forFrom lo hi body s) := by
  have key : P (lo + (hi - lo)) (forUp (hi - lo) (fun t => body (lo + t)) s) :=
    forUp_induction (fun t u => P (lo + t) u) (fun t => body (lo + t)) s (hi - lo)
      h0 (fun k t hk hP => hstep (lo + k) t (Nat.le_add_right lo k) (by omega) hP)
  have e : lo + (hi - lo) = hi := by omega
  rw [e] at key
  exact key

theorem forFrom_of_le (body : ℕ → σ → σ) (s : σ) {lo hi : ℕ} (h : hi ≤ lo) :
    forFrom lo hi body s = s := by
  have e : hi - lo = 0 := by omega
  simp [forFrom, e]

/-- Invariant rule for the descending loop: `P k` holds when the passes `n-1, ..., k` are
done. -/
theorem forDown_induction (P : ℕ → σ → Prop) (body : ℕ → σ → σ) (n : ℕ) :
    ∀ s : σ, P n s → (∀ k t, k < n → P (k + 1) t → P k (body k t)) →
      P 0 (forDown n body s) := by
  induction n with
  | zero => intro s h0 _; exact h0
  | succ m ih =>
    intro s h0 hstep
    rw [forDown_succ]
    exact ih (body m s) (hstep m s (Nat.lt_succ_self m) h0)
      (fun k t hk hP => hstep k t (Nat.lt_succ_of_lt hk) hP)

/-- An accumulation loop `s += f i` computes a finite sum. -/
theorem forUp_sum {β : Type} [AddCommMonoid β] (f : ℕ → β) (k : ℕ) (z : β) :
    forUp k (fun i s => s + f i) z = z + ∑ i in range k, f i := by
  induction k with
  | zero => simp
  | succ m ih => rw [forUp_succ, ih, sum_range_succ, add_assoc]

end basics

section decLoops
variable {α : Type} [LinearOrderedField α]

theorem decK_loop (div : α → α → α) (A : Mat α) (j : ℕ) (s0 : RowState α α) (k : ℕ)
    (hk : k ≤ j) : KInv div A j s0 k (forUp k (decK div A j) s0) := by
  refine forUp_induction (fun t R => KInv div A j s0 t R) (decK div A j) s0 k ?_ ?_
  · exact ⟨rfl, rfl, fun _ _ _ => rfl, fun c hc => absurd hc (Nat.not_lt_zero c), by simp,
      by simp⟩
  · intro t R ht h
    have htj : t ≠ j := by omega
    have hrow : ∀ i, R.L.get t i = s0.L.get t i := fun i => h.frame t i (Or.inl htj)
    have hsum : forUp t (fun i s => s + R.L.get t i * R.L.get j i) 0
        = ∑ i in range t, s0.L.get t i * R.L.get j i := by
      rw [forUp_sum, zero_add]
      exact sum_congr rfl (fun i _ => by rw [hrow i])
    have hold : ∀ c, c < t → ((decK div A j t R).L.get j c = R.L.get j c) := by
      intro c hc
      exact Mat.set_get_col _ _ _ _ _ (by omega)
    have hnew : (decK div A j t R).L.get j t
        = div (A.get j t - ∑ i in range t, s0.L.get t i * R.L.get j i) (s0.L.get t t) := by
      simp only [decK, Mat.set_get_self, hsum, hrow t]
    refine ⟨h.rows, h.cols, ?_, ?_, ?_, ?_⟩
    · intro r c hrc
      have : (decK div A j t R).L.get r c = R.L.get r c := by
        rcases hrc with hr | hc
        · exact Mat.set_get_row _ _ _ _ _ hr
        · exact Mat.set_get_col _ _ _ _ _ (by omega)
      rw [this]
      exact h.frame r c (by rcases hrc with hr | hc; exact Or.inl hr; exact Or.inr (by omega))
    · intro c hc
      rcases Nat.lt_succ_iff_lt_or_eq.mp hc with hlt | heq
      · rw [hold c hlt, h.entry c hlt]
        congr 2
        exact sum_congr rfl (fun i hi => by
          rw [hold i (lt_trans (mem_range.mp hi) hlt)])
      · subst heq
        rw [hnew]
        congr 2
        exact sum_congr rfl (fun i hi => by rw [hold i (mem_range.mp hi)])
    · have hd : (decK div A j t R).d
          = R.d + (decK div A j t R).L.get j t * (decK div A j t R).L.get j t := by
        simp only [decK, Mat.set_get_self]
      rw [hd, h.acc, sum_range_succ, add_assoc]
      congr 2
      exact sum_congr rfl (fun i hi => by rw [hold i (mem_range.mp hi)])
    · have hs : (decK div A j t R).spd = (R.spd && decide (A.get t j = A.get j t)) := rfl
      rw [hs, Bool.and_eq_true, h.flag, decide_eq_true_eq]
      constructor
      · rintro ⟨⟨h1, h2⟩, h3⟩
        refine ⟨h1, fun c hc => ?_⟩
        rcases Nat.lt_succ_iff_lt_or_eq.mp hc with hlt | heq
        · exact h2 c hlt
        · subst heq; exact h3
      · rintro ⟨h1, h2⟩
        exact ⟨⟨h1, fun c hc => h2 c (Nat.lt_succ_of_lt hc)⟩, h2 t (Nat.lt_succ_self t)⟩

/-- The loop `for (k = j+1; k < n; ++k) L[j][k] = 0`. -/
theorem zeroLoop_spec {β : Type} [Zero β] (L : Mat β) (j n : ℕ) :
    (forFrom (j + 1) n (fun k M => M.set j k 0) L).rows = L.rows ∧
    (forFrom (j + 1) n (fun k M => M.set j k 0) L).cols = L.cols ∧
    ∀ r c, (forFrom (j + 1) n (fun k M => M.set j k 0) L).get r c
      = if r = j ∧ j < c ∧ c < n then 0 else L.get r c := by
  rcases Nat.lt_or_ge n (j + 1) with hlt | hge
  · rw [forFrom_of_le _ _ (Nat.le_of_lt hlt)]
    refine ⟨rfl, rfl, fun r c => ?_⟩
    rw [if_neg]
    rintro ⟨_, h1, h2⟩
    omega
  · refine forFrom_induction
      (fun t M => M.rows = L.rows ∧ M.cols = L.cols ∧
        ∀ r c, M.get r c = if r = j ∧ j < c ∧ c < t then 0 else L.get r c)
      (fun k M => M.set j k 0) L (j + 1) n hge ?_ ?_
    · refine ⟨rfl, rfl, fun r c => ?_⟩
      rw [if_neg]
      rintro ⟨_, h1, h2⟩
      omega
    · rintro t M hjt htn ⟨h1, h2, h3⟩
      refine ⟨h1, h2, fun r c => ?_⟩
      rw [Mat.set_get, h3 r c]
      by_cases hr : r = j
      · by_cases hc : c = t
        · rw [if_pos ⟨hr, hc⟩, if_pos ⟨hr, by omega, by omega⟩]
        · have e1 : ¬ (r = j ∧ c = t) := fun h => hc h.2
          rw [if_neg e1]
          have e2 : (r = j ∧ j < c ∧ c < t) ↔ (r = j ∧ j < c ∧ c < t + 1) := by
            constructor
            · rintro ⟨a, b, c'⟩; exact ⟨a, b, by omega⟩
            · rintro ⟨a, b, c'⟩; exact ⟨a, b, by omega⟩
          simp only [e2]
      · have e1 : ¬ (r = j ∧ c = t) := fun h => hr h.1
        have e2 : ¬ (r = j ∧ j < c ∧ c < t) := fun h => hr h.1
        have e3 : ¬ (r = j ∧ j < c ∧ c < t + 1) := fun h => hr h.1
        rw [if_neg e1, if_neg e2, if_neg e3]


theorem pivot_congr {A L L' : Mat α} {j : ℕ} (h : ∀ k, k < j → L'.get j k = L.get j k) :
    pivot A L' j = pivot A L j := by
  unfold pivot
  congr 1
  exact sum_congr rfl (fun k hk => by rw [h k (mem_range.mp hk)])

theorem RowOK.congr {sqrt : α → α} {div : α → α → α} {A L L' : Mat α} {n j : ℕ}
    (h : ∀ r k, r ≤ j → L'.get r k = L.get r k) (hL : RowOK sqrt div A L n j) :
    RowOK sqrt div A L' n j := by
  obtain ⟨h1, h2, h3⟩ := hL
  have hp : pivot A L' j = pivot A L j := pivot_congr (fun k _ => h j k le_rfl)
  refine ⟨fun k hk => ?_, ?_, fun k hjk hkn => ?_⟩
  · rw [h j k le_rfl, h k k (Nat.le_of_lt hk), h1 k hk]
    congr 2
    exact sum_congr rfl (fun i _ => by rw [h k i (Nat.le_of_lt hk), h j i le_rfl])
  · rw [h j j le_rfl, hp, h2]
  · rw [h j k le_rfl, h3 k hjk hkn]

theorem decRow_spec (sqrt : α → α) (div : α → α → α) (A : Mat α) (n j : ℕ) (c : Cholesky α) :
    RowInv sqrt div A n j c (decRow sqrt div A n j c) := by
  have h := decK_loop div A j { d := 0, spd := c.spd, L := c.L } j le_rfl
  set R := forUp j (decK div A j) { d := 0, spd := c.spd, L := c.L } with hR
  set v := sqrt (if A.get j j - R.d > 0 then A.get j j - R.d else 0) with hv
  obtain ⟨z1, z2, z3⟩ := zeroLoop_spec (R.L.set j j v) j n
  have hL : (decRow sqrt div A n j c).L
      = forFrom (j + 1) n (fun k M => M.set j k 0) (R.L.set j j v) := rfl
  have hget : ∀ r k, (decRow sqrt div A n j c).L.get r k
      = if r = j ∧ j < k ∧ k < n then 0 else (R.L.set j j v).get r k := by
    intro r k; rw [hL]; exact z3 r k
  have hlow : ∀ k, k < j → (decRow sqrt div A n j c).L.get j k = R.L.get j k := by
    intro k hk
    rw [hget, if_neg (by rintro ⟨_, h1, _⟩; omega), Mat.set_get_col _ _ _ _ _ (by omega)]
  have hpiv : pivot A (decRow sqrt div A n j c).L j = A.get j j - R.d := by
    unfold pivot
    rw [h.acc, zero_add]
    congr 1
    exact sum_congr rfl (fun k hk => by rw [hlow k (mem_range.mp hk)])
  refine ⟨?_, ?_, ?_, ?_, ?_, ?_, ?_⟩
  · rw [hL, z1]; exact h.rows
  · rw [hL, z2]; exact h.cols
  · intro r k hr
    rw [hget, if_neg (fun hh => hr hh.1), Mat.set_get_row _ _ _ _ _ hr]
    exact h.frame r k (Or.inl hr)
  · intro k hk
    rw [hlow k hk, h.entry k hk]
    congr 2
    exact sum_congr rfl (fun i hi => by rw [hlow i (lt_trans (mem_range.mp hi) hk)])
  · rw [hget, if_neg (by rintro ⟨_, h1, _⟩; omega), Mat.set_get_self, hpiv]
  · intro k hjk hkn
    rw [hget, if_pos ⟨rfl, hjk, hkn⟩]
  · have hs : (decRow sqrt div A n j c).spd = (R.spd && decide (A.get j j - R.d > 0)) := rfl
    rw [hs, Bool.and_eq_true, h.flag, decide_eq_true_eq, hpiv, and_assoc]

theorem decLoop_spec (sqrt : α → α) (div : α → α → α) (A : Mat α) (n : ℕ) (c0 : Cholesky α)
    (m : ℕ) : DecInv sqrt div A n c0 m (forUp m (decRow sqrt div A n) c0) := by
  refine forUp_induction (fun t c => DecInv sqrt div A n c0 t c) (decRow sqrt div A n) c0 m
    ?_ ?_
  · exact ⟨rfl, rfl, fun _ _ _ => rfl, fun j hj => absurd hj (Nat.not_lt_zero j), by simp⟩
  · intro t c _ h
    have hr := decRow_spec sqrt div A n t c
    set c' := decRow sqrt div A n t c with hc'
    have hsame : ∀ r k, r < t → c'.L.get r k = c.L.get r k :=
      fun r k hrt => hr.frame r k (by omega)
    have hpiv : ∀ j, j < t → pivot A c'.L j = pivot A c.L j :=
      fun j hj => pivot_congr (fun k _ => hsame j k hj)
    refine ⟨hr.rows.trans h.rows, hr.cols.trans h.cols, ?_, ?_, ?_⟩
    · intro r k hrk
      rw [hr.frame r k (by omega)]
      exact h.frame r k (by omega)
    · intro j hj
      rcases Nat.lt_succ_iff_lt_or_eq.mp hj with hlt | heq
      · exact (h.rowOK j hlt).congr (fun r k hrj => hsame r k (by omega))
      · subst heq
        refine ⟨fun k hk => ?_, hr.diag, hr.upper⟩
        rw [hr.entry k hk, hsame k k hk]
        congr 2
        exact sum_congr rfl (fun i _ => by rw [hsame k i hk])
    · rw [hr.flag, h.flag]
      constructor
      · rintro ⟨⟨h1, h2⟩, h3, h4⟩
        refine ⟨h1, fun j hj => ?_⟩
        rcases Nat.lt_succ_iff_lt_or_eq.mp hj with hlt | heq
        · rw [hpiv j hlt]; exact h2 j hlt
        · subst heq; exact ⟨h3, h4⟩
      · rintro ⟨h1, h2⟩
        refine ⟨⟨h1, fun j hj => ?_⟩, (h2 t (Nat.lt_succ_self t)).1,
          (h2 t (Nat.lt_succ_self t)).2⟩
        rw [← hpiv j hj]
        exact h2 j (Nat.lt_succ_of_lt hj)

/-- What `dec` does on a square matrix, with the loops eliminated: the factor is `n × n`, every
row obeys the recursion, and the flag is the conjunction of all the tests. -/
theorem dec_square (sqrt : α → α) (div : α → α → α) (init : ℕ → ℕ → α) (c : Cholesky α)
    (A : Mat α) (hA : A.rows = A.cols) :
    (c.dec sqrt div init A).L.rows = A.cols ∧ (c.dec sqrt div init A).L.cols = A.cols ∧
    (∀ j, j < A.cols → RowOK sqrt div A (c.dec sqrt div init A).L A.cols j) ∧
    ((c.dec sqrt div init A).spd = true ↔
      ∀ j, j < A.cols → (∀ k, k < j → A.get k j = A.get j k) ∧
        0 < pivot A (c.dec sqrt div init A).L j) := by
  have h := decLoop_spec sqrt div A A.cols
    { spd := decide (A.rows = A.cols), L := Mat.alloc A.cols A.cols init } A.cols
  have e : c.dec sqrt div init A = forUp A.cols (decRow sqrt div A A.cols)
      { spd := decide (A.rows = A.cols), L := Mat.alloc A.cols A.cols init } := by
    simp [Cholesky.dec, hA]
  rw [e]
  refine ⟨h.rows, h.cols, h.rowOK, ?_⟩
  rw [h.flag]
  simp [hA]

/-- What `dec` does on a matrix that is not square: the flag is cleared and the factor is
the one of the previous state. -/
theorem dec_not_square (sqrt : α → α) (div : α → α → α) (init : ℕ → ℕ → α) (c : Cholesky α)
    (A : Mat α) (hA : A.rows ≠ A.cols) :
    c.dec sqrt div init A = { spd := false, L := c.L } := by
  simp [Cholesky.dec, hA]

end decLoops

/-! ## The substitution loops of `solve` -/

section substitution
variable {K : Type} [Field K]

/-- The inner loop `for (i = 0; i < k; ++i) x[t] -= x[i]*c(i)` for `k ≤ t`. -/
theorem accUp_spec (co : ℕ → K) (t k : ℕ) (hk : k ≤ t) (x : Vec K) :
    (forUp k (fun i x => x.set t (x.get t - x.get i * co i)) x).dim = x.dim ∧
    (∀ a, a ≠ t → (forUp k (fun i x => x.set t (x.get t - x.get i * co i)) x).get a = x.get a) ∧
    (forUp k (fun i x => x.set t (x.get t - x.get i * co i)) x).get t
      = x.get t - ∑ i in range k, x.get i * co i := by
  refine forUp_induction
    (fun m y => y.dim = x.dim ∧ (∀ a, a ≠ t → y.get a = x.get a) ∧
      y.get t = x.get t - ∑ i in range m, x.get i * co i)
    (fun i x => x.set t (x.get t - x.get i * co i)) x k ?_ ?_
  · exact ⟨rfl, fun _ _ => rfl, by simp⟩
  · rintro m y hm ⟨h1, h2, h3⟩
    refine ⟨h1, fun a ha => ?_, ?_⟩
    · rw [Vec.get_set_ne _ _ _ ha]; exact h2 a ha
    · rw [Vec.get_set_self, h3, h2 m (by omega), sum_range_succ]
      ring

/-- The inner loop `for (i = t+1; i < n; ++i) x[t] -= x[i]*c(i)`. -/
theorem accFrom_spec (co : ℕ → K) (t n : ℕ) (hn : t + 1 ≤ n) (x : Vec K) :
    (forFrom (t + 1) n (fun i x => x.set t (x.get t - x.get i * co i)) x).dim = x.dim ∧
    (∀ a, a ≠ t →
      (forFrom (t + 1) n (fun i x => x.set t (x.get t - x.get i * co i)) x).get a = x.get a) ∧
    (forFrom (t + 1) n (fun i x => x.set t (x.get t - x.get i * co i)) x).get t
      = x.get t - ∑ i in Ico (t + 1) n, x.get i * co i := by
  refine forFrom_induction
    (fun m y => y.dim = x.dim ∧ (∀ a, a ≠ t → y.get a = x.get a) ∧
      y.get t = x.get t - ∑ i in Ico (t + 1) m, x.get i * co i)
    (fun i x => x.set t (x.get t - x.get i * co i)) x (t + 1) n hn ?_ ?_
  · exact ⟨rfl, fun _ _ => rfl, by simp⟩
  · rintro m y hm1 hm2 ⟨h1, h2, h3⟩
    refine ⟨h1, fun a ha => ?_, ?_⟩
    · rw [Vec.get_set_ne _ _ _ ha]; exact h2 a ha
    · rw [Vec.get_set_self, h3, h2 m (by omega), sum_Ico_succ_top hm1]
      ring

/-- The forward loop with multipliers `co k i` and divisors `dg k`: entry `k` of the result
is `div (x[k] - Σ_{i<k} y[i]*co k i) (dg k)`. -/
theorem forwardLoop_spec (div : K → K → K) (co : ℕ → ℕ → K) (dg : ℕ → K) (n : ℕ) (x : Vec K) :
    (forUp n (fun k x =>
        let x := forUp k (fun i x => x.set k (x.get k - x.get i * co k i)) x
        x.set k (div (x.get k) (dg k))) x).dim = x.dim ∧
    (∀ a, n ≤ a → (forUp n (fun k x =>
        let x := forUp k (fun i x => x.set k (x.get k - x.get i * co k i)) x
        x.set k (div (x.get k) (dg k))) x).get a = x.get a) ∧
    (∀ a, a < n → (forUp n (fun k x =>
        let x := forUp k (fun i x => x.set k (x.get k - x.get i * co k i)) x
        x.set k (div (x.get k) (dg k))) x).get a
      = div (x.get a - ∑ i in range a, (forUp n (fun k x =>
        let x := forUp k (fun i x => x.set k (x.get k - x.get i * co k i)) x
        x.set k (div (x.get k) (dg k))) x).get i * co a i) (dg a)) := by
  refine forUp_induction
    (fun m y => y.dim = x.dim ∧ (∀ a, m ≤ a → y.get a = x.get a) ∧
      ∀ a, a < m → y.get a = div (x.get a - ∑ i in range a, y.get i * co a i) (dg a))
    _ x n ?_ ?_
  · exact ⟨rfl, fun _ _ => rfl, fun a ha => absurd ha (Nat.not_lt_zero a)⟩
  · rintro m y _ ⟨h1, h2, h3⟩
    obtain ⟨a1, a2, a3⟩ := accUp_spec (co m) m m le_rfl y
    set z := forUp m (fun i x => x.set m (x.get m - x.get i * co m i)) y with hz
    have hold : ∀ a, a ≠ m → (z.set m (div (z.get m) (dg m))).get a = y.get a := by
      intro a ha
      rw [Vec.get_set_ne _ _ _ ha]; exact a2 a ha
    refine ⟨a1.trans h1, fun a ha => ?_, fun a ha => ?_⟩
    · show (z.set m (div (z.get m) (dg m))).get a = x.get a
      rw [hold a (by omega)]; exact h2 a (by omega)
    · show (z.set m (div (z.get m) (dg m))).get a
        = div (x.get a - ∑ i in range a, (z.set m (div (z.get m) (dg m))).get i * co a i) (dg a)
      have hsum : ∑ i in range a, (z.set m (div (z.get m) (dg m))).get i * co a i
          = ∑ i in range a, y.get i * co a i :=
        sum_congr rfl (fun i hi => by rw [hold i (by have := mem_range.mp hi; omega)])
      rw [hsum]
      rcases Nat.lt_succ_iff_lt_or_eq.mp ha with hlt | heq
      · rw [hold a (by omega)]; exact h3 a hlt
      · subst heq
        rw [Vec.get_set_self, a3, h2 a le_rfl]

/-- The backward loop with multipliers `co k i` and divisors `dg k`: entry `k` of the result
is `div (x[k] - Σ_{k<i<n} y[i]*co k i) (dg k)`. -/
theorem backwardLoop_spec (div : K → K → K) (co : ℕ → ℕ → K) (dg : ℕ → K) (n : ℕ) (x : Vec K) :
    (forDown n (fun k x =>
        let x := forFrom (k + 1) n (fun i x => x.set k (x.get k - x.get i * co k i)) x
        x.set k (div (x.get k) (dg k))) x).dim = x.dim ∧
    (∀ a, n ≤ a → (forDown n (fun k x =>
        let x := forFrom (k + 1) n (fun i x => x.set k (x.get k - x.get i * co k i)) x
        x.set k (div (x.get k) (dg k))) x).get a = x.get a) ∧
    (∀ a, a < n → (forDown n (fun k x =>
        let x := forFrom (k + 1) n (fun i x => x.set k (x.get k - x.get i * co k i)) x
        x.set k (div (x.get k) (dg k))) x).get a
      = div (x.get a - ∑ i in Ico (a + 1) n, (forDown n (fun k x =>
        let x := forFrom (k + 1) n (fun i x => x.set k (x.get k - x.get i * co k i)) x
        x.set k (div (x.get k) (dg k))) x).get i * co a i) (dg a)) := by
  have key := forDown_induction
    (fun m y => y.dim = x.dim ∧ (∀ a, (a < m ∨ n ≤ a) → y.get a = x.get a) ∧
      ∀ a, m ≤ a → a < n →
        y.get a = div (x.get a - ∑ i in Ico (a + 1) n, y.get i * co a i) (dg a))
    (fun k x =>
        let x := forFrom (k + 1) n (fun i x => x.set k (x.get k - x.get i * co k i)) x
        x.set k (div (x.get k) (dg k))) n x
    ⟨rfl, fun _ _ => rfl, fun a h1 h2 => absurd h2 (by omega)⟩ ?_
  · obtain ⟨k1, k2, k3⟩ := key
    exact ⟨k1, fun a ha => k2 a (Or.inr ha), fun a ha => k3 a (Nat.zero_le a) ha⟩
  · rintro m y hm ⟨h1, h2, h3⟩
    obtain ⟨a1, a2, a3⟩ := accFrom_spec (co m) m n hm y
    set z := forFrom (m + 1) n (fun i x => x.set m (x.get m - x.get i * co m i)) y with hz
    have hold : ∀ a, a ≠ m → (z.set m (div (z.get m) (dg m))).get a = y.get a := by
      intro a ha
      rw [Vec.get_set_ne _ _ _ ha]; exact a2 a ha
    refine ⟨a1.trans h1, fun a ha => ?_, fun a ha1 ha2 => ?_⟩
    · show (z.set m (div (z.get m) (dg m))).get a = x.get a
      rw [hold a (by omega)]; exact h2 a (by omega)
    · show (z.set m (div (z.get m) (dg m))).get a
        = div (x.get a - ∑ i in Ico (a + 1) n,
            (z.set m (div (z.get m) (dg m))).get i * co a i) (dg a)
      have hsum : ∑ i in Ico (a + 1) n, (z.set m (div (z.get m) (dg m))).get i * co a i
          = ∑ i in Ico (a + 1) n, y.get i * co a i :=
        sum_congr rfl (fun i hi => by rw [hold i (by have := (mem_Ico.mp hi).1; omega)])
      rw [hsum]
      rcases Nat.eq_or_lt_of_le ha1 with heq | hlt
      · subst heq
        rw [Vec.get_set_self, a3, h2 m (Or.inl (Nat.lt_succ_self m))]
      · rw [hold a (by omega)]; exact h3 a hlt ha2

end substitution


/-! ## Triangular systems (exact arithmetic) -/

section triangular
variable {K : Type} [Field K]

theorem forwardSub_dim (div : K → K → K) (L : Mat K) (n : ℕ) (x : Vec K) :
    (forwardSub div L n x).dim = x.dim :=
  (forwardLoop_spec div (fun k i => L.get k i) (fun k => L.get k k) n x).1

theorem backSub_dim (div : K → K → K) (L : Mat K) (n : ℕ) (x : Vec K) :
    (backSub div L n x).dim = x.dim :=
  (backwardLoop_spec div (fun k i => L.get i k) (fun k => L.get k k) n x).1

/-- Forward substitution solves the lower triangular system `L*y = b`. -/
theorem forwardSub_solves {div : K → K → K} (hdiv : ExactDiv div) (L : Mat K) (n : ℕ)
    (x : Vec K) (hd : ∀ k, k < n → L.get k k ≠ 0) :
    ∀ k, k < n → ∑ i in range (k + 1), L.get k i * (forwardSub div L n x).get i = x.get k := by
  intro k hk
  have h := (forwardLoop_spec div (fun k i => L.get k i) (fun k => L.get k k) n x).2.2 k hk
  change (forwardSub div L n x).get k = _ at h
  have e : ∑ i in range k, (forUp n (fun k x =>
        let x := forUp k (fun i x => x.set k (x.get k - x.get i * L.get k i)) x
        x.set k (div (x.get k) (L.get k k))) x).get i * L.get k i
      = ∑ i in range k, L.get k i * (forwardSub div L n x).get i :=
    sum_congr rfl (fun i _ => mul_comm _ _)
  rw [e, hdiv _ _ (hd k hk)] at h
  rw [sum_range_succ, h]
  field_simp [hd k hk]

/-- Backward substitution solves the upper triangular system `L'*x = y`. -/
theorem backSub_solves {div : K → K → K} (hdiv : ExactDiv div) (L : Mat K) (n : ℕ)
    (x : Vec K) (hd : ∀ k, k < n → L.get k k ≠ 0) :
    ∀ k, k < n → ∑ i in Ico k n, L.get i k * (backSub div L n x).get i = x.get k := by
  intro k hk
  have h := (backwardLoop_spec div (fun k i => L.get i k) (fun k => L.get k k) n x).2.2 k hk
  change (backSub div L n x).get k = _ at h
  have e : ∑ i in Ico (k + 1) n, (forDown n (fun k x =>
        let x := forFrom (k + 1) n (fun i x => x.set k (x.get k - x.get i * L.get i k)) x
        x.set k (div (x.get k) (L.get k k))) x).get i * L.get i k
      = ∑ i in Ico (k + 1) n, L.get i k * (backSub div L n x).get i :=
    sum_congr rfl (fun i _ => mul_comm _ _)
  rw [e, hdiv _ _ (hd k hk)] at h
  rw [sum_eq_sum_Ico_succ_bot hk, h]
  field_simp [hd k hk]

/-- A sum over `range m` whose terms vanish from `k` on is a sum over `range k`. -/
theorem sum_range_of_zero {f : ℕ → K} {k m : ℕ} (hkm : k ≤ m)
    (h : ∀ i, k ≤ i → i < m → f i = 0) : ∑ i in range m, f i = ∑ i in range k, f i := by
  symm
  refine sum_subset (range_subset.2 hkm) (fun i hi hni => ?_)
  exact h i (by simpa using hni) (mem_range.mp hi)

/-- A sum over `range m` whose terms vanish below `k` is a sum over `Ico k m`. -/
theorem sum_Ico_of_zero {f : ℕ → K} {k m : ℕ}
    (h : ∀ i, i < k → f i = 0) : ∑ i in range m, f i = ∑ i in Ico k m, f i := by
  symm
  refine sum_subset (fun i hi => mem_range.mpr (mem_Ico.mp hi).2) (fun i hi hni => ?_)
  refine h i ?_
  by_contra hc
  exact hni (mem_Ico.mpr ⟨by omega, mem_range.mp hi⟩)

end triangular


/-! ## The recursion of `dec` in exact real arithmetic -/

section realMath
variable {div : ℝ → ℝ → ℝ} {A L : Mat ℝ} {n : ℕ}

/-- A row with positive pivot has a positive diagonal entry whose square is the pivot. -/
theorem RowOK.diag_pos {j : ℕ} (h : RowOK Real.sqrt div A L n j) (hp : 0 < pivot A L j) :
    0 < L.get j j ∧ L.get j j * L.get j j = pivot A L j := by
  have e : L.get j j = Real.sqrt (pivot A L j) := by rw [h.2.1, if_pos hp]
  rw [e]
  exact ⟨Real.sqrt_pos.2 hp, Real.mul_self_sqrt hp.le⟩

/-- In every case the diagonal entry is non-negative. -/
theorem RowOK.diag_nonneg {j : ℕ} (h : RowOK Real.sqrt div A L n j) : 0 ≤ L.get j j := by
  rw [h.2.1]
  exact Real.sqrt_nonneg _

/-- A row whose pivot is not positive has diagonal entry zero. -/
theorem RowOK.diag_zero {j : ℕ} (h : RowOK Real.sqrt div A L n j) (hp : pivot A L j ≤ 0) :
    L.get j j = 0 := by
  rw [h.2.1, if_neg (not_lt.mpr hp), Real.sqrt_zero]

/-- Entry `(j, k)` of `L*L'` below the diagonal, summed up to column `k`. -/
theorem factor_low (hdiv : ExactDiv div) {j k : ℕ} (hkj : k < j)
    (hj : RowOK Real.sqrt div A L n j) (hk : RowOK Real.sqrt div A L n k)
    (hp : 0 < pivot A L k) :
    ∑ i in range (k + 1), L.get j i * L.get k i = A.get j k := by
  have hne : L.get k k ≠ 0 := ne_of_gt (hk.diag_pos hp).1
  have h := hj.1 k hkj
  rw [hdiv _ _ hne] at h
  have e : ∑ i in range k, L.get j i * L.get k i = ∑ i in range k, L.get k i * L.get j i :=
    sum_congr rfl (fun i _ => mul_comm _ _)
  rw [sum_range_succ, e, h]
  field_simp [hne]

/-- Entry `(j, j)` of `L*L'`, summed up to column `j`. -/
theorem factor_diag {j : ℕ} (hj : RowOK Real.sqrt div A L n j) (hp : 0 < pivot A L j) :
    ∑ i in range (j + 1), L.get j i * L.get j i = A.get j j := by
  rw [sum_range_succ, (hj.diag_pos hp).2]
  unfold pivot
  ring

/-- Entry `(r, c)` of `L*L'` for `c ≤ r`, summed over any `m` columns with `r < m ≤ n`. -/
theorem factor_eq (hdiv : ExactDiv div) {m r c : ℕ} (hmn : m ≤ n) (hr : r < m) (hcr : c ≤ r)
    (hrow : ∀ j, j ≤ r → RowOK Real.sqrt div A L n j)
    (hpos : ∀ j, j ≤ r → 0 < pivot A L j) :
    ∑ i in range m, L.get r i * L.get c i = A.get r c := by
  have hz : ∑ i in range m, L.get r i * L.get c i
      = ∑ i in range (c + 1), L.get r i * L.get c i := by
    refine sum_range_of_zero (by omega) (fun i h1 h2 => ?_)
    rw [(hrow c hcr).2.2 i (by omega) (by omega), mul_zero]
  rw [hz]
  rcases Nat.eq_or_lt_of_le hcr with heq | hlt
  · subst heq
    exact factor_diag (hrow c le_rfl) (hpos c le_rfl)
  · exact factor_low hdiv hlt (hrow r le_rfl) (hrow c hcr) (hpos c hcr)

/-- The quadratic form of `a` at the vector `(-y, 1)` is the pivot of row `j`, when the
leading block of `a` is `l*l'`, row `j` of `a` is `l*(row j of l)` and `l'*y = row j of l`. -/
theorem quad_form_eq (a l : ℕ → ℕ → ℝ) (j : ℕ) (y x : ℕ → ℝ)
    (hx : ∀ r, r < j → x r = - y r) (hxj : x j = 1)
    (hG : ∀ r, r < j → ∀ c, c < j → ∑ i in range j, l r i * l c i = a r c)
    (hrow : ∀ c, c < j → ∑ i in range j, l j i * l c i = a j c)
    (hsym : ∀ c, c < j → a c j = a j c)
    (hy : ∀ k, k < j → ∑ i in range j, l i k * y i = l j k) :
    ∑ r in range (j + 1), ∑ c in range (j + 1), x r * a r c * x c
      = a j j - ∑ i in range j, l j i * l j i := by
  have hW : ∀ u : ℕ → ℝ, ∑ c in range j, (∑ i in range j, u i * l c i) * y c
      = ∑ i in range j, u i * l j i := by
    intro u
    calc ∑ c in range j, (∑ i in range j, u i * l c i) * y c
        = ∑ c in range j, ∑ i in range j, u i * (l c i * y c) :=
          sum_congr rfl (fun c _ => by
            rw [sum_mul]; exact sum_congr rfl (fun i _ => by ring))
      _ = ∑ i in range j, ∑ c in range j, u i * (l c i * y c) := sum_comm
      _ = ∑ i in range j, u i * l j i :=
          sum_congr rfl (fun i hi => by rw [← mul_sum, hy i (mem_range.mp hi)])
  have hT2 : ∑ c in range j, a j c * y c = ∑ i in range j, l j i * l j i := by
    rw [← hW (fun i => l j i)]
    exact sum_congr rfl (fun c hc => by rw [hrow c (mem_range.mp hc)])
  have hT1 : ∑ r in range j, y r * ∑ c in range j, a r c * y c
      = ∑ i in range j, l j i * l j i := by
    have h1 : ∀ r, r ∈ range j → y r * ∑ c in range j, a r c * y c
        = ∑ i in range j, (l r i * y r) * l j i := by
      intro r hr
      have : ∑ c in range j, a r c * y c = ∑ i in range j, l r i * l j i := by
        rw [← hW (fun i => l r i)]
        exact sum_congr rfl (fun c hc => by rw [hG r (mem_range.mp hr) c (mem_range.mp hc)])
      rw [this, mul_sum]
      exact sum_congr rfl (fun i _ => by ring)
    rw [sum_congr rfl h1, sum_comm]
    exact sum_congr rfl (fun i hi => by rw [← sum_mul, hy i (mem_range.mp hi)])
  have hin : ∀ r, ∑ c in range (j + 1), x r * a r c * x c
      = x r * a r j - x r * ∑ c in range j, a r c * y c := by
    intro r
    rw [sum_range_succ, hxj, mul_sum]
    have : ∑ c in range j, x r * a r c * x c = - ∑ c in range j, x r * (a r c * y c) := by
      rw [← sum_neg_distrib]
      exact sum_congr rfl (fun c hc => by rw [hx c (mem_range.mp hc)]; ring)
    rw [this]; ring
  rw [sum_range_succ, hin j, hxj, hT2]
  have hout : ∑ r in range j, ∑ c in range (j + 1), x r * a r c * x c
      = - ∑ r in range j, a j r * y r + ∑ r in range j, y r * ∑ c in range j, a r c * y c := by
    rw [← sum_neg_distrib, ← sum_add_distrib]
    refine sum_congr rfl (fun r hr => ?_)
    rw [hin r, hx r (mem_range.mp hr), hsym r (mem_range.mp hr)]
    ring
  rw [hout, hT1, hT2]
  ring

end realMath


section realPD
variable {div : ℝ → ℝ → ℝ} {A L : Mat ℝ} {n : ℕ}

/-- Positive definiteness forces every pivot of the recursion to be positive. -/
theorem pivots_pos (hdiv : ExactDiv div)
    (hrow : ∀ j, j < n → RowOK Real.sqrt div A L n j)
    (hsym : ∀ r c, r < n → c < n → A.get r c = A.get c r)
    (hQ : ∀ x : ℕ → ℝ, (∃ i, i < n ∧ x i ≠ 0) →
      0 < ∑ r in range n, ∑ c in range n, x r * A.get r c * x c) :
    ∀ j, j < n → 0 < pivot A L j := by
  intro j
  induction j using Nat.strong_induction_on with
  | _ j ih =>
    intro hj
    have hpos : ∀ k, k < j → 0 < pivot A L k := fun k hk => ih k hk (by omega)
    have hG : ∀ r, r < j → ∀ c, c < j → ∑ i in range j, L.get r i * L.get c i = A.get r c := by
      intro r hr c hc
      rcases le_total c r with h | h
      · exact factor_eq hdiv (by omega) hr h (fun i hi => hrow i (by omega))
          (fun i hi => hpos i (by omega))
      · rw [hsym r c (by omega) (by omega),
          ← factor_eq hdiv (Nat.le_of_lt hj) hc h (fun i hi => hrow i (by omega))
            (fun i hi => hpos i (by omega))]
        exact sum_congr rfl (fun i _ => mul_comm _ _)
    have hrowj : ∀ c, c < j → ∑ i in range j, L.get j i * L.get c i = A.get j c := by
      intro c hc
      have hz : ∑ i in range j, L.get j i * L.get c i
          = ∑ i in range (c + 1), L.get j i * L.get c i := by
        refine sum_range_of_zero (by omega) (fun i h1 h2 => ?_)
        rw [(hrow c (by omega)).2.2 i (by omega) (by omega), mul_zero]
      rw [hz]
      exact factor_low hdiv hc (hrow j hj) (hrow c (by omega)) (hpos c hc)
    have hy0 := @backSub_solves ℝ _ (fun a b => a / b) (fun _ _ _ => rfl) L j
      { dim := j, get := fun k => L.get j k }
      (fun k hk => ne_of_gt ((hrow k (by omega)).diag_pos (hpos k hk)).1)
    set yv := backSub (fun a b => a / b) L j { dim := j, get := fun k => L.get j k } with hyv
    have hy : ∀ k, k < j → ∑ i in range j, L.get i k * yv.get i = L.get j k := by
      intro k hk
      rw [sum_Ico_of_zero (k := k) (fun i hi => by
        rw [(hrow i (by omega)).2.2 k hi (by omega), zero_mul])]
      exact hy0 k hk
    have hq := hQ (fun r => if r < j then - yv.get r else if r = j then 1 else 0)
      ⟨j, hj, by simp⟩
    have hres : ∀ x : ℕ → ℝ, (∀ r, j < r → x r = 0) →
        ∑ r in range n, ∑ c in range n, x r * A.get r c * x c
          = ∑ r in range (j + 1), ∑ c in range (j + 1), x r * A.get r c * x c := by
      intro x hx
      rw [sum_range_of_zero (k := j + 1) (by omega) (fun r h1 _ => by
        refine sum_eq_zero (fun c _ => ?_)
        rw [hx r (by omega)]; ring)]
      refine sum_congr rfl (fun r _ => ?_)
      exact sum_range_of_zero (by omega) (fun c h1 _ => by rw [hx c (by omega)]; ring)
    rw [hres _ (fun r hr => by
        rw [if_neg (by omega), if_neg (by omega)]),
      quad_form_eq (fun r c => A.get r c) (fun r c => L.get r c) j yv.get _
        (fun r hr => by rw [if_pos hr]) (by simp) hG hrowj
        (fun c hc => hsym c j (by omega) hj) hy] at hq
    exact hq

/-- A positive definite matrix is symmetric (entries with indices below `n`). -/
theorem posDef_symm {A : Mat ℝ} {n : ℕ} (h : (A.toMatrix n n).PosDef) :
    ∀ r c, r < n → c < n → A.get r c = A.get c r := by
  intro r c hr hc
  have := h.1.apply ⟨r, hr⟩ ⟨c, hc⟩
  simpa [Mat.toMatrix] using this.symm

/-- The quadratic form of a positive definite matrix, written with sums over `range n`. -/
theorem posDef_quad {A : Mat ℝ} {n : ℕ} (h : (A.toMatrix n n).PosDef) (x : ℕ → ℝ)
    (hx : ∃ i, i < n ∧ x i ≠ 0) :
    0 < ∑ r in range n, ∑ c in range n, x r * A.get r c * x c := by
  obtain ⟨i, hi, hxi⟩ := hx
  have hne : (fun t : Fin n => x t.val) ≠ 0 := by
    intro h0
    exact hxi (by simpa using congrFun h0 ⟨i, hi⟩)
  have hp := h.2 _ hne
  have e : Matrix.dotProduct (star fun t : Fin n => x t.val)
      (Matrix.mulVec (A.toMatrix n n) fun t : Fin n => x t.val)
      = ∑ r in range n, ∑ c in range n, x r * A.get r c * x c := by
    rw [← Fin.sum_univ_eq_sum_range (fun r => ∑ c in range n, x r * A.get r c * x c) n]
    unfold Matrix.dotProduct Matrix.mulVec Matrix.dotProduct
    refine sum_congr rfl (fun r _ => ?_)
    rw [← Fin.sum_univ_eq_sum_range (fun c => x r.val * A.get r.val c * x c) n, mul_sum]
    refine sum_congr rfl (fun c _ => ?_)
    simp [Mat.toMatrix, mul_assoc]
  rw [e] at hp
  exact hp

end realPD


/-! ## Statements on Mathlib matrices -/

section matrixForm

/-- The product `L*L'` of library matrices, entry by entry. -/
theorem toMatrix_mul_transpose {K : Type} [Field K] (L A : Mat K) (n : ℕ) :
    L.toMatrix n n * (L.toMatrix n n).transpose = A.toMatrix n n ↔
      ∀ r c, r < n → c < n → ∑ i in range n, L.get r i * L.get c i = A.get r c := by
  constructor
  · intro h r c hr hc
    have := congrFun (congrFun h ⟨r, hr⟩) ⟨c, hc⟩
    rw [Matrix.mul_apply] at this
    rw [← Fin.sum_univ_eq_sum_range (fun i => L.get r i * L.get c i) n]
    simpa [Mat.toMatrix] using this
  · intro h
    ext r c
    rw [Matrix.mul_apply]
    have := h r.val c.val r.isLt c.isLt
    rw [← Fin.sum_univ_eq_sum_range (fun i => L.get r.val i * L.get c.val i) n] at this
    simpa [Mat.toMatrix] using this

/-- The product `A*x` of a library matrix and a library vector, entry by entry. -/
theorem toMatrix_mulVec {K : Type} [Field K] (A : Mat K) (x b : Vec K) (n : ℕ) :
    Matrix.mulVec (A.toMatrix n n) (x.toFun n) = b.toFun n ↔
      ∀ r, r < n → ∑ c in range n, A.get r c * x.get c = b.get r := by
  constructor
  · intro h r hr
    have := congrFun h ⟨r, hr⟩
    rw [← Fin.sum_univ_eq_sum_range (fun c => A.get r c * x.get c) n]
    simpa [Matrix.mulVec, Matrix.dotProduct, Mat.toMatrix, Vec.toFun] using this
  · intro h
    ext r
    have := h r.val r.isLt
    rw [← Fin.sum_univ_eq_sum_range (fun c => A.get r.val c * x.get c) n] at this
    simpa [Matrix.mulVec, Matrix.dotProduct, Mat.toMatrix, Vec.toFun] using this

variable {div : ℝ → ℝ → ℝ} {A L : Mat ℝ} {n : ℕ}

/-- All entries of `L*L'` when every pivot is positive and `A` is symmetric. -/
theorem factor_full (hdiv : ExactDiv div)
    (hrow : ∀ j, j < n → RowOK Real.sqrt div A L n j)
    (hpos : ∀ j, j < n → 0 < pivot A L j)
    (hsym : ∀ r c, r < n → c < n → A.get r c = A.get c r) :
    ∀ r c, r < n → c < n → ∑ i in range n, L.get r i * L.get c i = A.get r c := by
  intro r c hr hc
  rcases le_total c r with h | h
  · exact factor_eq hdiv le_rfl hr h (fun i hi => hrow i (by omega))
      (fun i hi => hpos i (by omega))
  · rw [hsym r c hr hc, ← factor_eq hdiv le_rfl hc h (fun i hi => hrow i (by omega))
      (fun i hi => hpos i (by omega))]
    exact sum_congr rfl (fun i _ => mul_comm _ _)

/-- A matrix `L*L'` with `L` lower triangular and of non-zero diagonal is positive definite. -/
theorem posDef_of_factor (hupper : ∀ r c, r < c → c < n → L.get r c = 0)
    (hd : ∀ k, k < n → L.get k k ≠ 0)
    (hf : L.toMatrix n n * (L.toMatrix n n).transpose = A.toMatrix n n) :
    (A.toMatrix n n).PosDef := by
  have hdet : (L.toMatrix n n).transpose.det ≠ 0 := by
    rw [Matrix.det_transpose, Matrix.det_of_lowerTriangular]
    · exact prod_ne_zero_iff.mpr (fun i _ => hd i.val i.isLt)
    · intro i j hij
      exact hupper i.val j.val hij j.isLt
  rw [← hf]
  refine ⟨?_, fun x hx => ?_⟩
  · rw [Matrix.IsHermitian, Matrix.conjTranspose_mul]
    congr 1
  · have hv : Matrix.mulVec (L.toMatrix n n).transpose x ≠ 0 :=
      fun h0 => hx (Matrix.eq_zero_of_mulVec_eq_zero hdet h0)
    have e : Matrix.dotProduct (star x)
        (Matrix.mulVec (L.toMatrix n n * (L.toMatrix n n).transpose) x)
        = Matrix.dotProduct (Matrix.mulVec (L.toMatrix n n).transpose x)
            (Matrix.mulVec (L.toMatrix n n).transpose x) := by
      rw [← Matrix.mulVec_mulVec, Matrix.dotProduct_mulVec, Matrix.mulVec_transpose]
      simp
    rw [e]
    have h0 : 0 ≤ Matrix.dotProduct (Matrix.mulVec (L.toMatrix n n).transpose x)
        (Matrix.mulVec (L.toMatrix n n).transpose x) :=
      sum_nonneg (fun i _ => mul_self_nonneg _)
    rcases h0.lt_or_eq with h1 | h1
    · exact h1
    · exact absurd (Matrix.dotProduct_self_eq_zero.mp h1.symm) hv

end matrixForm


section solveSpec

/-- What `solve` computes for a lower triangular factor `L` of non-zero diagonal: the
solution of `(L*L')*x = b`. -/
theorem solve_spec {K : Type} [Field K] {div : K → K → K} (hdiv : ExactDiv div)
    (c : Cholesky K) (n : ℕ) (hrows : c.L.rows = n)
    (hupper : ∀ r k, r < k → k < n → c.L.get r k = 0)
    (hd : ∀ k, k < n → c.L.get k k ≠ 0) (b : Vec K) (hb : b.dim = n) :
    (c.solve div b).dim = n ∧
    ∀ r, r < n → ∑ k in range n, (∑ i in range n, c.L.get r i * c.L.get k i)
      * (c.solve div b).get k = b.get r := by
  have e : c.solve div b = backSub div c.L n (forwardSub div c.L n b) := by
    simp [Cholesky.solve, hrows, hb]
  rw [e]
  refine ⟨by rw [backSub_dim, forwardSub_dim, hb], fun r hr => ?_⟩
  have hy := forwardSub_solves hdiv c.L n b hd
  have hx := backSub_solves hdiv c.L n (forwardSub div c.L n b) hd
  set y := forwardSub div c.L n b with hyd
  set x := backSub div c.L n y with hxd
  have hx' : ∀ i, i < n → ∑ k in range n, c.L.get k i * x.get k = y.get i := by
    intro i hi
    rw [sum_Ico_of_zero (k := i) (fun k hk => by rw [hupper k i hk hi, zero_mul])]
    exact hx i hi
  have hy' : ∑ i in range n, c.L.get r i * y.get i = b.get r := by
    rw [sum_range_of_zero (k := r + 1) (by omega) (fun i h1 h2 => by
      rw [hupper r i (by omega) h2, zero_mul])]
    exact hy r hr
  calc ∑ k in range n, (∑ i in range n, c.L.get r i * c.L.get k i) * x.get k
      = ∑ k in range n, ∑ i in range n, c.L.get r i * (c.L.get k i * x.get k) :=
        sum_congr rfl (fun k _ => by
          rw [sum_mul]; exact sum_congr rfl (fun i _ => by ring))
    _ = ∑ i in range n, ∑ k in range n, c.L.get r i * (c.L.get k i * x.get k) := sum_comm
    _ = ∑ i in range n, c.L.get r i * y.get i :=
        sum_congr rfl (fun i hi => by rw [← mul_sum, hx' i (mem_range.mp hi)])
    _ = b.get r := hy'

end solveSpec

/-! ## Examples -/

section examples

theorem exA_posDef : ((exA : Mat ℝ).toMatrix 2 2).PosDef := by
  refine ⟨?_, fun x hx => ?_⟩
  · ext i j
    fin_cases i <;> fin_cases j <;> simp [Mat.toMatrix, exA, Matrix.conjTranspose_apply]
  · have hx' : x 0 ≠ 0 ∨ x 1 ≠ 0 := by
      by_contra hcon
      push_neg at hcon
      apply hx
      ext i
      fin_cases i
      · exact hcon.1
      · exact hcon.2
    have e : Matrix.dotProduct (star x) (Matrix.mulVec ((exA : Mat ℝ).toMatrix 2 2) x)
        = (2 * x 0 + x 1) ^ 2 + 2 * x 1 ^ 2 := by
      simp [Matrix.dotProduct, Matrix.mulVec, Fin.sum_univ_two, Mat.toMatrix, exA]
      ring
    rw [e]
    rcases hx' with h | h
    · by_cases h1 : x 1 = 0
      · have h2 : 2 * x 0 + x 1 ≠ 0 := by rw [h1]; simpa using h
        positivity
      · positivity
    · positivity

end examples


/-! ## Shapes of the results of `solve` -/

section shapes
variable {σ : Type}

theorem forUp_preserve (P : σ → Prop) (body : ℕ → σ → σ) (h : ∀ k s, P s → P (body k s))
    (n : ℕ) (s : σ) (hs : P s) : P (forUp n body s) :=
  forUp_induction (fun _ t => P t) body s n hs (fun k t _ ht => h k t ht)

theorem forFrom_preserve (P : σ → Prop) (body : ℕ → σ → σ) (h : ∀ k s, P s → P (body k s))
    (lo hi : ℕ) (s : σ) (hs : P s) : P (forFrom lo hi body s) :=
  forUp_preserve P (fun t => body (lo + t)) (fun k s hs => h (lo + k) s hs) (hi - lo) s hs

theorem forDown_preserve (P : σ → Prop) (body : ℕ → σ → σ) (h : ∀ k s, P s → P (body k s))
    (n : ℕ) (s : σ) (hs : P s) : P (forDown n body s) :=
  forDown_induction (fun _ t => P t) body n s hs (fun k t _ ht => h k t ht)

variable {K : Type} [Field K]

theorem forwardSubM_shape (div : K → K → K) (L : Mat K) (n nx : ℕ) (X : Mat K) :
    (forwardSubM div L n nx X).rows = X.rows ∧ (forwardSubM div L n nx X).cols = X.cols := by
  refine forUp_preserve (fun Y : Mat K => Y.rows = X.rows ∧ Y.cols = X.cols) _ ?_ nx X
    ⟨rfl, rfl⟩
  intro j Y hY
  refine forUp_preserve (fun Y : Mat K => Y.rows = X.rows ∧ Y.cols = X.cols) _ ?_ n Y hY
  intro k Z hZ
  exact forUp_preserve (fun Y : Mat K => Y.rows = X.rows ∧ Y.cols = X.cols)
    (fun i X => X.set k j (X.get k j - X.get i j * L.get k i)) (fun i W hW => hW) k Z hZ

theorem backSubM_shape (div : K → K → K) (L : Mat K) (n nx : ℕ) (X : Mat K) :
    (backSubM div L n nx X).rows = X.rows ∧ (backSubM div L n nx X).cols = X.cols := by
  refine forUp_preserve (fun Y : Mat K => Y.rows = X.rows ∧ Y.cols = X.cols) _ ?_ nx X
    ⟨rfl, rfl⟩
  intro j Y hY
  refine forDown_preserve (fun Y : Mat K => Y.rows = X.rows ∧ Y.cols = X.cols) _ ?_ n Y hY
  intro k Z hZ
  exact forFrom_preserve (fun Y : Mat K => Y.rows = X.rows ∧ Y.cols = X.cols)
    (fun i X => X.set k j (X.get k j - X.get i j * L.get i k)) (fun i W hW => hW)
    (k + 1) n Z hZ

theorem SOLVE1_dim {α : Type} (O : ComplexOps α K) (L : Mat K) (n : ℕ) (x : Vec K) :
    (SOLVE1 O L n x).dim = x.dim := by
  refine forDown_preserve (fun y : Vec K => y.dim = x.dim) _ ?_ n _ ?_
  · intro k y hy
    exact forFrom_preserve (fun y : Vec K => y.dim = x.dim)
      (fun i x => x.set k (x.get k - x.get i * O.conj (L.get i k))) (fun i w hw => hw)
      (k + 1) n y hy
  · refine forUp_preserve (fun y : Vec K => y.dim = x.dim) _ ?_ n x rfl
    intro k y hy
    exact forUp_preserve (fun y : Vec K => y.dim = x.dim)
      (fun i x => x.set k (x.get k - x.get i * L.get k i)) (fun i w hw => hw) k y hy

theorem SOLVE2_shape {α : Type} (O : ComplexOps α K) (L : Mat K) (n : ℕ) (B X : Mat K) :
    (SOLVE2 O L n B X).rows = X.rows ∧ (SOLVE2 O L n B X).cols = X.cols := by
  refine forUp_preserve (fun Y : Mat K => Y.rows = X.rows ∧ Y.cols = X.cols) _ ?_ B.cols _ ?_
  · intro j Y hY
    refine forDown_preserve (fun Y : Mat K => Y.rows = X.rows ∧ Y.cols = X.cols) _ ?_ n Y hY
    intro k Z hZ
    exact forFrom_preserve (fun Y : Mat K => Y.rows = X.rows ∧ Y.cols = X.cols)
      (fun i X => X.set k j (X.get k j - X.get i j * O.conj (L.get i k))) (fun i W hW => hW)
      (k + 1) n Z hZ
  · refine forUp_preserve (fun Y : Mat K => Y.rows = X.rows ∧ Y.cols = X.cols) _ ?_ B.cols X
      ⟨rfl, rfl⟩
    intro j Y hY
    refine forUp_preserve (fun Y : Mat K => Y.rows = X.rows ∧ Y.cols = X.cols) _ ?_ n Y hY
    intro k Z hZ
    exact forUp_preserve (fun Y : Mat K => Y.rows = X.rows ∧ Y.cols = X.cols)
      (fun i X => X.set k j (X.get k j - X.get i j * L.get k i)) (fun i W hW => hW) k Z hZ

end shapes


/-! ## The loops of `MAINLOOP` -/

theorem cpivot_congr {α K : Type} [Field α] {O : ComplexOps α K} {A L L' : Mat K}
    {j : ℕ}
    (h : ∀ k, k < j → L'.get j k = L.get j k) : cpivot O A L' j = cpivot O A L j := by
  unfold cpivot
  congr 1
  exact sum_congr rfl (fun k hk => by rw [h k (mem_range.mp hk)])

theorem CRowOK.congrC {α K : Type} [LinearOrderedField α] [Field K] {O : ComplexOps α K}
    {A L L' : Mat K} {n j : ℕ}
    (h : ∀ r k, r ≤ j → L'.get r k = L.get r k) (hL : CRowOK O A L n j) :
    CRowOK O A L' n j := by
  obtain ⟨h1, h2, h3⟩ := hL
  have hp : cpivot O A L' j = cpivot O A L j := cpivot_congr (fun k _ => h j k le_rfl)
  refine ⟨fun k hk => ?_, ?_, fun k hjk hkn => ?_⟩
  · rw [h j k le_rfl, h k k (Nat.le_of_lt hk), h1 k hk]
    congr 2
    exact sum_congr rfl (fun i _ => by rw [h k i (Nat.le_of_lt hk), h j i le_rfl])
  · rw [h j j le_rfl, hp, h2]
  · rw [h j k le_rfl, h3 k hjk hkn]

section mainloopLoops
variable {α K : Type} [LinearOrderedField α] [Field K] [DecidableEq K]

theorem mainloopK_loop (O : ComplexOps α K) (A : Mat K) (j : ℕ) (s0 : RowState α K) (k : ℕ)
    (hk : k ≤ j) : KInvC O A j s0 k (forUp k (mainloopK O A j) s0) := by
  refine forUp_induction (fun t R => KInvC O A j s0 t R) (mainloopK O A j) s0 k ?_ ?_
  · exact ⟨rfl, rfl, fun _ _ _ => rfl, fun c hc => absurd hc (Nat.not_lt_zero c), by simp,
      by simp⟩
  · intro t R ht h
    have htj : t ≠ j := by omega
    have hold : ∀ c, c < t → ((mainloopK O A j t R).L.get j c = R.L.get j c) := by
      intro c hc
      exact Mat.set_get_col _ _ _ _ _ (by omega)
    have hrow : ∀ i, R.L.get t i = s0.L.get t i := fun i => h.frame t i (Or.inl htj)
    have hsum : forUp t (fun i s => s + R.L.get t i * O.conj (R.L.get j i)) 0
        = ∑ i in range t, s0.L.get t i * O.conj (R.L.get j i) := by
      rw [forUp_sum, zero_add]
      exact sum_congr rfl (fun i _ => by rw [hrow i])
    have hnew : (mainloopK O A j t R).L.get j t
        = O.div (A.get j t - ∑ i in range t, s0.L.get t i * O.conj (R.L.get j i))
            (s0.L.get t t) := by
      simp only [mainloopK, Mat.set_get_self, hsum, hrow t]
    refine ⟨h.rows, h.cols, ?_, ?_, ?_, ?_⟩
    · intro r c hrc
      have : (mainloopK O A j t R).L.get r c = R.L.get r c := by
        rcases hrc with hr | hc
        · exact Mat.set_get_row _ _ _ _ _ hr
        · exact Mat.set_get_col _ _ _ _ _ (by omega)
      rw [this]
      exact h.frame r c (by rcases hrc with hr | hc; exact Or.inl hr; exact Or.inr (by omega))
    · intro c hc
      rcases Nat.lt_succ_iff_lt_or_eq.mp hc with hlt | heq
      · rw [hold c hlt, h.entry c hlt]
        congr 2
        exact sum_congr rfl (fun i hi => by
          rw [hold i (lt_trans (mem_range.mp hi) hlt)])
      · subst heq
        rw [hnew]
        congr 2
        exact sum_congr rfl (fun i hi => by rw [hold i (mem_range.mp hi)])
    · have hd : (mainloopK O A j t R).d = R.d + O.norm ((mainloopK O A j t R).L.get j t) := by
        simp only [mainloopK, Mat.set_get_self]
      rw [hd, h.acc, sum_range_succ, add_assoc]
      congr 2
      exact sum_congr rfl (fun i hi => by rw [hold i (mem_range.mp hi)])
    · have hs : (mainloopK O A j t R).spd
          = (R.spd && decide (A.get t j = O.conj (A.get j t))) := rfl
      rw [hs, Bool.and_eq_true, h.flag, decide_eq_true_eq]
      constructor
      · rintro ⟨⟨h1, h2⟩, h3⟩
        refine ⟨h1, fun c hc => ?_⟩
        rcases Nat.lt_succ_iff_lt_or_eq.mp hc with hlt | heq
        · exact h2 c hlt
        · subst heq; exact h3
      · rintro ⟨h1, h2⟩
        exact ⟨⟨h1, fun c hc => h2 c (Nat.lt_succ_of_lt hc)⟩, h2 t (Nat.lt_succ_self t)⟩

theorem mainloopRow_spec (O : ComplexOps α K) (A : Mat K) (j : ℕ) (c : Cholesky K) :
    RowInvC O A A.rows j c (mainloopRow O A j c) := by
  have h := mainloopK_loop O A j
    { d := 0, spd := c.spd && decide (O.imag (A.get j j) = 0), L := c.L } j le_rfl
  set R := forUp j (mainloopK O A j)
    { d := 0, spd := c.spd && decide (O.imag (A.get j j) = 0), L := c.L } with hR
  set v := O.ofReal (O.sqrt (if O.real (A.get j j) - R.d > 0 then O.real (A.get j j) - R.d
    else 0)) with hv
  obtain ⟨z1, z2, z3⟩ := zeroLoop_spec (R.L.set j j v) j A.rows
  have hL : (mainloopRow O A j c).L
      = forFrom (j + 1) A.rows (fun k M => M.set j k 0) (R.L.set j j v) := rfl
  have hget : ∀ r k, (mainloopRow O A j c).L.get r k
      = if r = j ∧ j < k ∧ k < A.rows then 0 else (R.L.set j j v).get r k := by
    intro r k; rw [hL]; exact z3 r k
  have hlow : ∀ k, k < j → (mainloopRow O A j c).L.get j k = R.L.get j k := by
    intro k hk
    rw [hget, if_neg (by rintro ⟨_, h1, _⟩; omega), Mat.set_get_col _ _ _ _ _ (by omega)]
  have hpiv : cpivot O A (mainloopRow O A j c).L j = O.real (A.get j j) - R.d := by
    unfold cpivot
    rw [h.acc, zero_add]
    congr 1
    exact sum_congr rfl (fun k hk => by rw [hlow k (mem_range.mp hk)])
  refine ⟨?_, ?_, ?_, ?_, ?_, ?_, ?_⟩
  · rw [hL, z1]; exact h.rows
  · rw [hL, z2]; exact h.cols
  · intro r k hr
    rw [hget, if_neg (fun hh => hr hh.1), Mat.set_get_row _ _ _ _ _ hr]
    exact h.frame r k (Or.inl hr)
  · intro k hk
    rw [hlow k hk, h.entry k hk]
    congr 2
    exact sum_congr rfl (fun i hi => by rw [hlow i (lt_trans (mem_range.mp hi) hk)])
  · rw [hget, if_neg (by rintro ⟨_, h1, _⟩; omega), Mat.set_get_self, hpiv]
  · intro k hjk hkn
    rw [hget, if_pos ⟨rfl, hjk, hkn⟩]
  · have hs : (mainloopRow O A j c).spd
        = (R.spd && decide (O.real (A.get j j) - R.d > 0)) := rfl
    rw [hs, Bool.and_eq_true, h.flag, decide_eq_true_eq, hpiv, Bool.and_eq_true,
      decide_eq_true_eq]
    tauto

theorem mainloop_loop (O : ComplexOps α K) (A : Mat K) (c0 : Cholesky K) (m : ℕ) :
    DecInvC O A A.rows c0 m (forUp m (mainloopRow O A) c0) := by
  refine forUp_induction (fun t c => DecInvC O A A.rows c0 t c) (mainloopRow O A) c0 m ?_ ?_
  · exact ⟨rfl, rfl, fun _ _ _ => rfl, fun j hj => absurd hj (Nat.not_lt_zero j), by simp⟩
  · intro t c _ h
    have hr := mainloopRow_spec O A t c
    set c' := mainloopRow O A t c with hc'
    have hsame : ∀ r k, r < t → c'.L.get r k = c.L.get r k :=
      fun r k hrt => hr.frame r k (by omega)
    have hpiv : ∀ j, j < t → cpivot O A c'.L j = cpivot O A c.L j :=
      fun j hj => cpivot_congr (fun k _ => hsame j k hj)
    refine ⟨hr.rows.trans h.rows, hr.cols.trans h.cols, ?_, ?_, ?_⟩
    · intro r k hrk
      rw [hr.frame r k (by omega)]
      exact h.frame r k (by omega)
    · intro j hj
      rcases Nat.lt_succ_iff_lt_or_eq.mp hj with hlt | heq
      · exact (h.rowOK j hlt).congrC (fun r k hrj => hsame r k (by omega))
      · subst heq
        refine ⟨fun k hk => ?_, hr.diag, hr.upper⟩
        rw [hr.entry k hk, hsame k k hk]
        congr 2
        exact sum_congr rfl (fun i _ => by rw [hsame k i hk])
    · rw [hr.flag, h.flag]
      constructor
      · rintro ⟨⟨h1, h2⟩, h3, h4, h5⟩
        refine ⟨h1, fun j hj => ?_⟩
        rcases Nat.lt_succ_iff_lt_or_eq.mp hj with hlt | heq
        · rw [hpiv j hlt]; exact h2 j hlt
        · subst heq; exact ⟨h3, h4, h5⟩
      · rintro ⟨h1, h2⟩
        refine ⟨⟨h1, fun j hj => ?_⟩, h2 t (Nat.lt_succ_self t)⟩
        rw [← hpiv j hj]
        exact h2 j (Nat.lt_succ_of_lt hj)

/-- What the complex `dec` does on a square matrix, with the loops eliminated. -/
theorem decC_square (O : ComplexOps α K) (init : ℕ → ℕ → K) (c : Cholesky K)
    (A : Mat K) (hA : A.rows = A.cols) :
    (c.decC O init A).L.rows = A.cols ∧ (c.decC O init A).L.cols = A.cols ∧
    (∀ j, j < A.cols → CRowOK O A (c.decC O init A).L A.cols j) ∧
    ((c.decC O init A).spd = true ↔
      ∀ j, j < A.cols → O.imag (A.get j j) = 0 ∧
        (∀ k, k < j → A.get k j = O.conj (A.get j k)) ∧
        0 < cpivot O A (c.decC O init A).L j) := by
  have e : c.decC O init A = forUp A.rows (mainloopRow O A)
      { spd := decide (A.rows = A.cols), L := Mat.alloc A.cols A.cols init } := by
    simp [Cholesky.decC, MAINLOOP, hA]
  rw [e, ← hA]
  have h := mainloop_loop O A
    { spd := decide (A.rows = A.rows), L := Mat.alloc A.rows A.rows init } A.rows
  refine ⟨h.rows, h.cols, h.rowOK, ?_⟩
  rw [h.flag]
  simp

/-- What the complex `dec` does on a matrix that is not square: the flag is cleared; the
factor was already replaced by a fresh `A.cols() × A.cols()` matrix. -/
theorem decC_not_square (O : ComplexOps α K) (init : ℕ → ℕ → K) (c : Cholesky K)
    (A : Mat K) (hA : A.rows ≠ A.cols) :
    c.decC O init A = { spd := false, L := Mat.alloc A.cols A.cols init } := by
  simp [Cholesky.decC, MAINLOOP, hA]

end mainloopLoops


section evalReal

theorem sqrt_four : Real.sqrt 4 = 2 := by
  rw [show (4 : ℝ) = 2 ^ 2 by norm_num]
  exact Real.sqrt_sq (by norm_num)

/-- The run of `dec` on `[[4,2],[2,3]]`. -/
theorem exA_dec (div : ℝ → ℝ → ℝ) (hdiv : ExactDiv div) (init : ℕ → ℕ → ℝ) (c : Cholesky ℝ) :
    (c.dec Real.sqrt div init exA).spd = true ∧
    (c.dec Real.sqrt div init exA).L.rows = 2 ∧
    (c.dec Real.sqrt div init exA).L.cols = 2 ∧
    (c.dec Real.sqrt div init exA).L.get 0 0 = 2 ∧
    (c.dec Real.sqrt div init exA).L.get 0 1 = 0 ∧
    (c.dec Real.sqrt div init exA).L.get 1 0 = 1 ∧
    (c.dec Real.sqrt div init exA).L.get 1 1 = Real.sqrt 2 := by
  obtain ⟨h1, h2, h3, h4⟩ := dec_square Real.sqrt div init c exA rfl
  set L := (c.dec Real.sqrt div init exA).L with hL
  have r0 : RowOK Real.sqrt div exA L 2 0 := h3 0 (by decide)
  have r1 : RowOK Real.sqrt div exA L 2 1 := h3 1 (by decide)
  have p0 : pivot exA L 0 = 4 := by simp [pivot, exA]
  have l00 : L.get 0 0 = 2 := by
    rw [r0.2.1, p0, if_pos (by norm_num), sqrt_four]
  have l10 : L.get 1 0 = 1 := by
    rw [r1.1 0 (by decide), l00, hdiv _ _ (by norm_num)]
    simp [exA]
  have p1 : pivot exA L 1 = 2 := by
    simp [pivot, exA, l10]
    norm_num
  have l11 : L.get 1 1 = Real.sqrt 2 := by
    rw [r1.2.1, p1, if_pos (by norm_num)]
  refine ⟨h4.mpr ?_, h1, h2, l00, r0.2.2 1 (by decide) (by decide), l10, l11⟩
  intro j hj
  have hj' : j < 2 := hj
  interval_cases j
  · exact ⟨fun k hk => absurd hk (Nat.not_lt_zero k), by rw [p0]; norm_num⟩
  · refine ⟨fun k hk => ?_, by rw [p1]; norm_num⟩
    interval_cases k
    simp [exA]

/-- The recursion with an exact square root is the recursion with the real square root: the
argument of `sqrt` is never negative. -/
theorem RowOK.of_exactSqrt {sqrt : ℝ → ℝ} (hs : ExactSqrt sqrt) {div : ℝ → ℝ → ℝ}
    {A L : Mat ℝ} {n j : ℕ} (h : RowOK sqrt div A L n j) : RowOK Real.sqrt div A L n j := by
  refine ⟨h.1, ?_, h.2.2⟩
  rw [h.2.1]
  apply hs
  split_ifs with hp
  · exact le_of_lt hp
  · exact le_rfl

/-- The run of `dec` on `[[1,2],[2,1]]`. -/
theorem exB_dec (sqrt : ℝ → ℝ) (hs : ExactSqrt sqrt) (div : ℝ → ℝ → ℝ) (hdiv : ExactDiv div)
    (init : ℕ → ℕ → ℝ) (c : Cholesky ℝ) :
    (c.dec sqrt div init exB).L.get 0 0 = 1 ∧
    (c.dec sqrt div init exB).L.get 1 0 = 2 ∧
    pivot exB (c.dec sqrt div init exB).L 1 = -3 := by
  obtain ⟨h1, h2, h3, h4⟩ := dec_square sqrt div init c exB rfl
  set L := (c.dec sqrt div init exB).L with hL
  have r0 : RowOK Real.sqrt div exB L 2 0 := (h3 0 (by decide)).of_exactSqrt hs
  have r1 : RowOK Real.sqrt div exB L 2 1 := (h3 1 (by decide)).of_exactSqrt hs
  have p0 : pivot exB L 0 = 1 := by simp [pivot, exB]
  have l00 : L.get 0 0 = 1 := by
    rw [r0.2.1, p0, if_pos (by norm_num), Real.sqrt_one]
  have l10 : L.get 1 0 = 2 := by
    rw [r1.1 0 (by decide), l00, hdiv _ _ (by norm_num)]
    simp [exB]
  refine ⟨l00, l10, ?_⟩
  simp [pivot, exB, l10]
  norm_num

end evalReal


section evalComplex
open scoped ComplexOrder

/-- A matrix `M*Mᴴ` with `M` invertible is positive definite. -/
theorem posDef_mul_conjTranspose {n : ℕ} (M : Matrix (Fin n) (Fin n) ℂ) (hdet : M.det ≠ 0) :
    (M * M.conjTranspose).PosDef := by
  have hdet' : M.conjTranspose.det ≠ 0 := by
    rw [Matrix.det_conjTranspose]
    exact star_ne_zero.mpr hdet
  refine ⟨Matrix.isHermitian_mul_conjTranspose_self M, fun x hx => ?_⟩
  have hv : Matrix.mulVec M.conjTranspose x ≠ 0 :=
    fun h0 => hx (Matrix.eq_zero_of_mulVec_eq_zero hdet' h0)
  have e : Matrix.dotProduct (star x) (Matrix.mulVec (M * M.conjTranspose) x)
      = Matrix.dotProduct (star (Matrix.mulVec M.conjTranspose x))
          (Matrix.mulVec M.conjTranspose x) := by
    rw [← Matrix.mulVec_mulVec, Matrix.dotProduct_mulVec, Matrix.star_mulVec,
      Matrix.conjTranspose_conjTranspose]
  rw [e]
  exact Matrix.dotProduct_star_self_pos_iff.mpr hv

theorem exH_posDef : (exH.toMatrix 3 3).PosDef := by
  have e : exH.toMatrix 3 3
      = (Matrix.of ![![1, 0, 0], ![Complex.I, 1, 0], ![1, 1, 1]] : Matrix (Fin 3) (Fin 3) ℂ)
        * (Matrix.of ![![1, 0, 0], ![Complex.I, 1, 0], ![1, 1, 1]] :
            Matrix (Fin 3) (Fin 3) ℂ).conjTranspose := by
    ext i j
    fin_cases i <;> fin_cases j <;>
      simp [Mat.toMatrix, exH, Matrix.mul_apply, Fin.sum_univ_three,
        Matrix.conjTranspose_apply] <;> ring_nf
  rw [e]
  refine posDef_mul_conjTranspose _ ?_
  simp [Matrix.det_fin_three]

/-- The run of the complex `dec` on `exH`: the third pivot comes out as `-3`. -/
theorem exH_decC (div : ℂ → ℂ → ℂ) (hdiv : ExactDiv div) (init : ℕ → ℕ → ℂ) (c : Cholesky ℂ) :
    (c.decC (complexOps Real.sqrt div) init exH).L.get 1 0 = Complex.I ∧
    (c.decC (complexOps Real.sqrt div) init exH).L.get 1 1 = 1 ∧
    (c.decC (complexOps Real.sqrt div) init exH).L.get 1 2 = 0 ∧
    (c.decC (complexOps Real.sqrt div) init exH).L.get 2 0 = 1 ∧
    (c.decC (complexOps Real.sqrt div) init exH).L.get 2 1 = 1 - 2 * Complex.I ∧
    cpivot (complexOps Real.sqrt div) exH (c.decC (complexOps Real.sqrt div) init exH).L 2
      = -3 := by
  obtain ⟨h1, h2, h3, h4⟩ := decC_square (complexOps Real.sqrt div) init c exH rfl
  set L := (c.decC (complexOps Real.sqrt div) init exH).L with hL
  have r0 : CRowOK (complexOps Real.sqrt div) exH L 3 0 := h3 0 (by decide)
  have r1 : CRowOK (complexOps Real.sqrt div) exH L 3 1 := h3 1 (by decide)
  have r2 : CRowOK (complexOps Real.sqrt div) exH L 3 2 := h3 2 (by decide)
  have p0 : cpivot (complexOps Real.sqrt div) exH L 0 = 1 := by
    simp [cpivot, exH, complexOps]
  have l00 : L.get 0 0 = 1 := by
    rw [r0.2.1, p0, if_pos (by norm_num)]
    simp [complexOps]
  have l10 : L.get 1 0 = Complex.I := by
    rw [r1.1 0 (by decide), l00]
    simp [complexOps, exH, hdiv _ _ (one_ne_zero)]
  have l20 : L.get 2 0 = 1 := by
    rw [r2.1 0 (by decide), l00]
    simp [complexOps, exH, hdiv _ _ (one_ne_zero)]
  have p1 : cpivot (complexOps Real.sqrt div) exH L 1 = 1 := by
    simp [cpivot, exH, complexOps, l10]
    norm_num
  have l11 : L.get 1 1 = 1 := by
    rw [r1.2.1, p1, if_pos (by norm_num)]
    simp [complexOps]
  have l21 : L.get 2 1 = 1 - 2 * Complex.I := by
    rw [r2.1 1 (by decide), l11]
    simp [complexOps, exH, hdiv _ _ (one_ne_zero), l10, l20]
    ring
  refine ⟨l10, l11, r1.2.2 2 (by decide) (by decide), l20, l21, ?_⟩
  simp [cpivot, exH, complexOps, sum_range_succ, l20, l21, Complex.normSq_apply]
  norm_num

end evalComplex


/-! ## Further consequences of the loop characterisations -/

section moreReal

/-- After `dec` of a positive definite matrix, `solve` returns the solution of `A*x = b`,
entry by entry. -/
theorem dec_solve_eqs (n : ℕ) (A : Mat ℝ) (hr : A.rows = n) (hc : A.cols = n)
    (hA : (A.toMatrix n n).PosDef) (div : ℝ → ℝ → ℝ) (hdiv : ExactDiv div)
    (init : ℕ → ℕ → ℝ) (c : Cholesky ℝ) (b : Vec ℝ) (hb : b.dim = n) :
    ((c.dec Real.sqrt div init A).solve div b).dim = n ∧
    ∀ r, r < n → ∑ k in range n,
      A.get r k * ((c.dec Real.sqrt div init A).solve div b).get k = b.get r := by
  obtain ⟨h1, h2, h3, h4⟩ := dec_square Real.sqrt div init c A (hr.trans hc.symm)
  rw [hc] at h1 h2 h3 h4
  have hsym := posDef_symm hA
  have hpos := pivots_pos hdiv h3 hsym (posDef_quad hA)
  have hfac := factor_full hdiv h3 hpos hsym
  obtain ⟨s1, s2⟩ := solve_spec hdiv (c.dec Real.sqrt div init A) n h1
    (fun r k hrk hk => (h3 r (by omega)).2.2 k hrk hk)
    (fun k hk => ne_of_gt ((h3 k hk).diag_pos (hpos k hk)).1) b hb
  refine ⟨s1, fun r hr' => ?_⟩
  rw [← s2 r hr']
  exact sum_congr rfl (fun k hk => by rw [hfac r k hr' (mem_range.mp hk)])

/-- The run of `dec` and `solve` on `[[4,2],[2,3]]` and `[6,5]`: the solution is `[1,1]`. -/
theorem exA_solve (div : ℝ → ℝ → ℝ) (hdiv : ExactDiv div) (init : ℕ → ℕ → ℝ)
    (c : Cholesky ℝ) :
    ((c.dec Real.sqrt div init exA).solve div exb).dim = 2 ∧
    ((c.dec Real.sqrt div init exA).solve div exb).get 0 = 1 ∧
    ((c.dec Real.sqrt div init exA).solve div exb).get 1 = 1 := by
  obtain ⟨h1, h2⟩ := dec_solve_eqs 2 exA rfl rfl exA_posDef div hdiv init c exb rfl
  set x := (c.dec Real.sqrt div init exA).solve div exb with hx
  have e0 := h2 0 (by decide)
  have e1 := h2 1 (by decide)
  simp [sum_range_succ, exA, exb] at e0 e1
  refine ⟨h1, ?_, ?_⟩ <;> linarith

end moreReal


/-! ## Loops that commute with a map of the state -/

section commute
variable {σ τ : Type}

/-- If `φ` turns every pass of one loop into the pass of another, it turns the whole loop
into the other loop. -/
theorem forUp_comm (φ : σ → τ) (f : ℕ → σ → σ) (g : ℕ → τ → τ)
    (h : ∀ k s, φ (f k s) = g k (φ s)) (n : ℕ) (s : σ) :
    φ (forUp n f s) = forUp n g (φ s) := by
  induction n with
  | zero => rfl
  | succ m ih => rw [forUp_succ, forUp_succ, h, ih]

theorem forFrom_comm (φ : σ → τ) (f : ℕ → σ → σ) (g : ℕ → τ → τ)
    (h : ∀ k s, φ (f k s) = g k (φ s)) (lo hi : ℕ) (s : σ) :
    φ (forFrom lo hi f s) = forFrom lo hi g (φ s) :=
  forUp_comm φ (fun t => f (lo + t)) (fun t => g (lo + t)) (fun k s => h (lo + k) s)
    (hi - lo) s

theorem forDown_comm (φ : σ → τ) (f : ℕ → σ → σ) (g : ℕ → τ → τ)
    (h : ∀ k s, φ (f k s) = g k (φ s)) (n : ℕ) :
    ∀ s : σ, φ (forDown n f s) = forDown n g (φ s) := by
  induction n with
  | zero => intro s; rfl
  | succ m ih => intro s; rw [forDown_succ, forDown_succ, ih, h]

/-- A loop whose passes all leave `φ` unchanged leaves `φ` unchanged. -/
theorem forUp_const (φ : σ → τ) (f : ℕ → σ → σ) (h : ∀ k s, φ (f k s) = φ s) (n : ℕ)
    (s : σ) : φ (forUp n f s) = φ s := by
  induction n with
  | zero => rfl
  | succ m ih => rw [forUp_succ, h, ih]

theorem forFrom_const (φ : σ → τ) (f : ℕ → σ → σ) (h : ∀ k s, φ (f k s) = φ s)
    (lo hi : ℕ) (s : σ) : φ (forFrom lo hi f s) = φ s :=
  forUp_const φ (fun t => f (lo + t)) (fun k s => h (lo + k) s) (hi - lo) s

theorem forDown_const (φ : σ → τ) (f : ℕ → σ → σ) (h : ∀ k s, φ (f k s) = φ s) (n : ℕ) :
    ∀ s : σ, φ (forDown n f s) = φ s := by
  induction n with
  | zero => intro s; rfl
  | succ m ih => intro s; rw [forDown_succ, ih, h]

/-- A loop over the columns in which pass `j` acts on `φ j` as `g` and leaves every other
`φ t` alone: afterwards `φ j` is `g` of the initial `φ j` for the columns `j < n`. -/
theorem forUp_columns (φ : ℕ → σ → τ) (f : ℕ → σ → σ) (g : τ → τ)
    (hsame : ∀ j s, φ j (f j s) = g (φ j s))
    (hother : ∀ j t s, t ≠ j → φ t (f j s) = φ t s) (n : ℕ) (s : σ) (j : ℕ) :
    φ j (forUp n f s) = if j < n then g (φ j s) else φ j s := by
  induction n with
  | zero => simp
  | succ m ih =>
    rw [forUp_succ]
    rcases Nat.lt_trichotomy j m with hlt | heq | hgt
    · rw [hother m j _ (by omega), ih, if_pos hlt, if_pos (by omega)]
    · subst heq
      rw [hsame, ih, if_neg (lt_irrefl j), if_pos (Nat.lt_succ_self j)]
    · rw [hother m j _ (by omega), ih, if_neg (by omega), if_neg (by omega)]

/-- The rule `forUp_comm` when only the passes `k < n` are known to commute with `φ`. -/
theorem forUp_comm_lt (φ : σ → τ) (f : ℕ → σ → σ) (g : ℕ → τ → τ) (n : ℕ)
    (h : ∀ k, k < n → ∀ s, φ (f k s) = g k (φ s)) (s : σ) :
    φ (forUp n f s) = forUp n g (φ s) := by
  induction n with
  | zero => rfl
  | succ m ih =>
    rw [forUp_succ, forUp_succ, h m (Nat.lt_succ_self m),
      ih (fun k hk => h k (Nat.lt_succ_of_lt hk))]

/-- The rule `forDown_comm` when only the passes `k < n` are known to commute with `φ`. -/
theorem forDown_comm_lt (φ : σ → τ) (f : ℕ → σ → σ) (g : ℕ → τ → τ) (n : ℕ) :
    (∀ k, k < n → ∀ s, φ (f k s) = g k (φ s)) →
    ∀ s : σ, φ (forDown n f s) = forDown n g (φ s) := by
  induction n with
  | zero => intro _ s; rfl
  | succ m ih =>
    intro h s
    rw [forDown_succ, forDown_succ, ih (fun k hk => h k (Nat.lt_succ_of_lt hk)),
      h m (Nat.lt_succ_self m)]

end commute

/-! ## Columns of the matrix `solve` -/

section columns
variable {K : Type}

theorem Mat.col_set_same (X : Mat K) (k j : ℕ) (v : K) :
    (X.set k j v).col j = (X.col j).set k v := by
  simp only [Mat.col, Mat.set, Vec.set, Vec.mk.injEq, true_and]
  funext a
  simp

theorem Mat.col_set_other (X : Mat K) (k j : ℕ) (v : K) {t : ℕ} (h : t ≠ j) :
    (X.set k j v).col t = X.col t := by
  simp only [Mat.col, Mat.set, Vec.mk.injEq, true_and]
  funext a
  simp [h]

variable [Field K]

/-- One column of the forward phase of the matrix `solve` is the forward phase of the
vector `solve`. -/
theorem forwardSubM_col (div : K → K → K) (L : Mat K) (n nx : ℕ) (X : Mat K) (j : ℕ)
    (hj : j < nx) : (forwardSubM div L n nx X).col j = forwardSub div L n (X.col j) := by
  have h := forUp_columns (fun t (Y : Mat K) => Y.col t)
    (fun j X => forUp n (fun k X =>
      let X := forUp k (fun i X => X.set k j (X.get k j - X.get i j * L.get k i)) X
      X.set k j (div (X.get k j) (L.get k k))) X)
    (forwardSub div L n) ?_ ?_ nx X j
  · rw [if_pos hj] at h
    exact h
  · intro j Y
    refine forUp_comm (fun Y : Mat K => Y.col j) _ _ (fun k Z => ?_) n Y
    have hin := forUp_comm (fun Y : Mat K => Y.col j)
      (fun i X => X.set k j (X.get k j - X.get i j * L.get k i))
      (fun i x => x.set k (x.get k - x.get i * L.get k i))
      (fun i W => Mat.col_set_same W k j _) k Z
    have hg : (forUp k (fun i X => X.set k j (X.get k j - X.get i j * L.get k i)) Z).get k j
        = (forUp k (fun i x => x.set k (x.get k - x.get i * L.get k i)) (Z.col j)).get k := by
      rw [← hin]; rfl
    show (Mat.set _ k j _).col j = Vec.set _ k _
    rw [Mat.col_set_same, hin, hg]
  · intro j t Y ht
    refine forUp_const (fun Y : Mat K => Y.col t) _ (fun k Z => ?_) n Y
    have hin := forUp_const (fun Y : Mat K => Y.col t)
      (fun i X => X.set k j (X.get k j - X.get i j * L.get k i))
      (fun i W => Mat.col_set_other W k j _ ht) k Z
    show (Mat.set _ k j _).col t = Z.col t
    rw [Mat.col_set_other _ _ _ _ ht]
    exact hin

/-- One column of the backward phase of the matrix `solve` is the backward phase of the
vector `solve`. -/
theorem backSubM_col (div : K → K → K) (L : Mat K) (n nx : ℕ) (X : Mat K) (j : ℕ)
    (hj : j < nx) : (backSubM div L n nx X).col j = backSub div L n (X.col j) := by
  have h := forUp_columns (fun t (Y : Mat K) => Y.col t)
    (fun j X => forDown n (fun k X =>
      let X := forFrom (k + 1) n (fun i X => X.set k j (X.get k j - X.get i j * L.get i k)) X
      X.set k j (div (X.get k j) (L.get k k))) X)
    (backSub div L n) ?_ ?_ nx X j
  · rw [if_pos hj] at h
    exact h
  · intro j Y
    refine forDown_comm (fun Y : Mat K => Y.col j) _ _ (fun k Z => ?_) n Y
    have hin := forFrom_comm (fun Y : Mat K => Y.col j)
      (fun i X => X.set k j (X.get k j - X.get i j * L.get i k))
      (fun i x => x.set k (x.get k - x.get i * L.get i k))
      (fun i W => Mat.col_set_same W k j _) (k + 1) n Z
    have hg : (forFrom (k + 1) n
          (fun i X => X.set k j (X.get k j - X.get i j * L.get i k)) Z).get k j
        = (forFrom (k + 1) n
          (fun i x => x.set k (x.get k - x.get i * L.get i k)) (Z.col j)).get k := by
      rw [← hin]; rfl
    show (Mat.set _ k j _).col j = Vec.set _ k _
    rw [Mat.col_set_same, hin, hg]
  · intro j t Y ht
    refine forDown_const (fun Y : Mat K => Y.col t) _ (fun k Z => ?_) n Y
    have hin := forFrom_const (fun Y : Mat K => Y.col t)
      (fun i X => X.set k j (X.get k j - X.get i j * L.get i k))
      (fun i W => Mat.col_set_other W k j _ ht) (k + 1) n Z
    show (Mat.set _ k j _).col t = Z.col t
    rw [Mat.col_set_other _ _ _ _ ht]
    exact hin

end columns


/-! ## The recursion determines the factor -/

section unique
variable {α : Type} [LinearOrderedField α]

/-- Two factors that obey the recursion of `dec` for inputs with the same lower triangle
have the same entries in range. -/
theorem rowOK_unique {sqrt : α → α} {div : α → α → α} {A B L M : Mat α} {n : ℕ}
    (hAB : ∀ j k, k ≤ j → j < n → A.get j k = B.get j k)
    (hL : ∀ j, j < n → RowOK sqrt div A L n j)
    (hM : ∀ j, j < n → RowOK sqrt div B M n j) :
    ∀ j, j < n → ∀ k, k < n → L.get j k = M.get j k := by
  intro j
  induction j using Nat.strong_induction_on with
  | _ j ih =>
    intro hj
    have hlow : ∀ k, k < j → L.get j k = M.get j k := by
      intro k
      induction k using Nat.strong_induction_on with
      | _ k ihk =>
        intro hk
        rw [(hL j hj).1 k hk, (hM j hj).1 k hk, hAB j k (Nat.le_of_lt hk) hj,
          ih k hk (by omega) k (by omega)]
        congr 2
        exact sum_congr rfl (fun i hi => by
          have hik := mem_range.mp hi
          rw [ih k hk (by omega) i (by omega), ihk i hik (by omega)])
    have hp : pivot A L j = pivot B M j := by
      unfold pivot
      rw [hAB j j le_rfl hj]
      congr 1
      exact sum_congr rfl (fun k hk => by rw [hlow k (mem_range.mp hk)])
    intro k hk
    rcases Nat.lt_trichotomy k j with h | h | h
    · exact hlow k h
    · subst h
      rw [(hL k hj).2.1, (hM k hj).2.1, hp]
    · rw [(hL j hj).2.2 k h hk, (hM j hj).2.2 k h hk]

/-- The pivots of two factors with the same entries in range, for inputs with the same
diagonal. -/
theorem pivot_eq_of_same {A B L M : Mat α} {n j : ℕ} (hj : j < n)
    (hd : A.get j j = B.get j j) (h : ∀ k, k < n → L.get j k = M.get j k) :
    pivot A L j = pivot B M j := by
  unfold pivot
  rw [hd]
  congr 1
  exact sum_congr rfl (fun k hk => by rw [h k (by have := mem_range.mp hk; omega)])

end unique

theorem cpivot_eq_of_same {α K : Type} [Field α] {O : ComplexOps α K} {A L M : Mat K} {n j : ℕ} (hj : j < n)
    (h : ∀ k, k < n → L.get j k = M.get j k) : cpivot O A L j = cpivot O A M j := by
  unfold cpivot
  congr 1
  exact sum_congr rfl (fun k hk => by rw [h k (by have := mem_range.mp hk; omega)])

section uniqueC
variable {α K : Type} [LinearOrderedField α] [Field K]

/-- Two factors that obey the recursion of `MAINLOOP` for the same input have the same
entries in range. -/
theorem cRowOK_unique {O : ComplexOps α K} {A L M : Mat K} {n : ℕ}
    (hL : ∀ j, j < n → CRowOK O A L n j) (hM : ∀ j, j < n → CRowOK O A M n j) :
    ∀ j, j < n → ∀ k, k < n → L.get j k = M.get j k := by
  intro j
  induction j using Nat.strong_induction_on with
  | _ j ih =>
    intro hj
    have hlow : ∀ k, k < j → L.get j k = M.get j k := by
      intro k
      induction k using Nat.strong_induction_on with
      | _ k ihk =>
        intro hk
        rw [(hL j hj).1 k hk, (hM j hj).1 k hk, ih k hk (by omega) k (by omega)]
        congr 2
        exact sum_congr rfl (fun i hi => by
          have hik := mem_range.mp hi
          rw [ih k hk (by omega) i (by omega), ihk i hik (by omega)])
    have hp : cpivot O A L j = cpivot O A M j := by
      unfold cpivot
      congr 1
      exact sum_congr rfl (fun k hk => by rw [hlow k (mem_range.mp hk)])
    intro k hk
    rcases Nat.lt_trichotomy k j with h | h | h
    · exact hlow k h
    · subst h
      rw [(hL k hj).2.1, (hM k hj).2.1, hp]
    · rw [(hL j hj).2.2 k h hk, (hM j hj).2.2 k h hk]

end uniqueC

section embed

/-- Exact divisions of `ℝ` and `ℂ` agree on real data when the divisor is not zero. -/
theorem div_ofReal {div : ℝ → ℝ → ℝ} {divC : ℂ → ℂ → ℂ} (hdiv : ExactDiv div)
    (hdivC : ExactDiv divC) (x y : ℝ) (hy : y ≠ 0) :
    divC (x : ℂ) (y : ℂ) = ((div x y : ℝ) : ℂ) := by
  rw [hdivC _ _ (Complex.ofReal_ne_zero.mpr hy), hdiv _ _ hy, Complex.ofReal_div]

/-- The complex recursion on real data computes the embedding of the real recursion in every
row whose divisors `L[k][k]`, `k < j`, are not zero. -/
theorem cRowOK_real {sqrt : ℝ → ℝ} {div : ℝ → ℝ → ℝ} {divC : ℂ → ℂ → ℂ}
    (hdiv : ExactDiv div) (hdivC : ExactDiv divC)
    {A L : Mat ℝ} {M : Mat ℂ} {n : ℕ}
    (hL : ∀ j, j < n → RowOK sqrt div A L n j)
    (hM : ∀ j, j < n → CRowOK (complexOps sqrt divC) (A.map Complex.ofReal) M n j) :
    ∀ j, j < n → (∀ k, k < j → L.get k k ≠ 0) →
      (∀ k, k < n → M.get j k = ((L.get j k : ℝ) : ℂ)) ∧
      cpivot (complexOps sqrt divC) (A.map Complex.ofReal) M j = pivot A L j := by
  intro j
  induction j using Nat.strong_induction_on with
  | _ j ih =>
    intro hj hnz
    have hlow : ∀ k, k < j → M.get j k = ((L.get j k : ℝ) : ℂ) := by
      intro k
      induction k using Nat.strong_induction_on with
      | _ k ihk =>
        intro hk
        have hrowk := (ih k hk (by omega) (fun i hi => hnz i (by omega))).1
        have hsum : ∑ i in range k, M.get k i * (complexOps sqrt divC).conj (M.get j i)
            = ((∑ i in range k, L.get k i * L.get j i : ℝ) : ℂ) := by
          rw [Complex.ofReal_sum]
          refine sum_congr rfl (fun i hi => ?_)
          have hik := mem_range.mp hi
          rw [hrowk i (by omega), ihk i hik (by omega)]
          simp [complexOps]
        rw [(hM j hj).1 k hk, (hL j hj).1 k hk, hsum, hrowk k (by omega)]
        show divC (((A.get j k : ℝ) : ℂ) - _) _ = _
        rw [← Complex.ofReal_sub, div_ofReal hdiv hdivC _ _ (hnz k hk)]
    have hp : cpivot (complexOps sqrt divC) (A.map Complex.ofReal) M j = pivot A L j := by
      unfold cpivot pivot
      congr 1
      refine sum_congr rfl (fun k hk => ?_)
      rw [hlow k (mem_range.mp hk)]
      simp [complexOps, Complex.normSq_ofReal]
    refine ⟨fun k hk => ?_, hp⟩
    rcases Nat.lt_trichotomy k j with h | h | h
    · exact hlow k h
    · subst h
      rw [(hM k hj).2.1, (hL k hj).2.1, hp]
      rfl
    · rw [(hM j hj).2.2 k h hk, (hL j hj).2.2 k h hk]
      simp

end embed


/-! ## The complex substitution `SOLVE1` -/

section solve1

theorem SOLVE1_eq {α K : Type} [Field K] (O : ComplexOps α K) (L : Mat K) (n : ℕ)
    (x : Vec K) :
    SOLVE1 O L n x = forDown n (fun k x =>
      let x := forFrom (k + 1) n (fun i x => x.set k (x.get k - x.get i * O.conj (L.get i k))) x
      x.set k (O.div (x.get k) (L.get k k))) (forwardSub O.div L n x) := rfl

/-- The backward phase of `SOLVE1` solves `Lᴴ*x = y` when the diagonal of `L` is real. -/
theorem SOLVE1_solves {sqrt : ℝ → ℝ} {div : ℂ → ℂ → ℂ} (hdiv : ExactDiv div) (L : Mat ℂ)
    (n : ℕ) (b : Vec ℂ) (hd : ∀ k, k < n → L.get k k ≠ 0)
    (hreal : ∀ k, k < n → (L.get k k).im = 0) :
    ∀ k, k < n → ∑ i in Ico k n, (starRingEnd ℂ) (L.get i k)
        * (SOLVE1 (complexOps sqrt div) L n b).get i
      = (forwardSub div L n b).get k := by
  intro k hk
  have h := (backwardLoop_spec div (fun k i => (starRingEnd ℂ) (L.get i k))
    (fun k => L.get k k) n (forwardSub div L n b)).2.2 k hk
  change (SOLVE1 (complexOps sqrt div) L n b).get k = _ at h
  have e : ∑ i in Ico (k + 1) n, (forDown n (fun k x =>
        let x := forFrom (k + 1) n
          (fun i x => x.set k (x.get k - x.get i * (starRingEnd ℂ) (L.get i k))) x
        x.set k (div (x.get k) (L.get k k))) (forwardSub div L n b)).get i
          * (starRingEnd ℂ) (L.get i k)
      = ∑ i in Ico (k + 1) n, (starRingEnd ℂ) (L.get i k)
          * (SOLVE1 (complexOps sqrt div) L n b).get i :=
    sum_congr rfl (fun i _ => mul_comm _ _)
  have hc : (starRingEnd ℂ) (L.get k k) = L.get k k :=
    Complex.conj_eq_iff_im.mpr (hreal k hk)
  rw [e, hdiv _ _ (hd k hk)] at h
  rw [sum_eq_sum_Ico_succ_bot hk, h, hc]
  field_simp [hd k hk]

end solve1

/-! ## `solve` on embedded real data -/

section embedSolve

theorem Vec.map_set {α β : Type} (f : α → β) (x : Vec α) (k : ℕ) (v : α) :
    (x.set k v).map f = (x.map f).set k (f v) := by
  simp only [Vec.map, Vec.set, Vec.mk.injEq, true_and]
  funext a
  split_ifs <;> rfl

/-- The complex `SOLVE1` on the embedding of real data is the embedding of the real
substitution when no diagonal entry of the factor is zero. -/
theorem SOLVE1_real {sqrt : ℝ → ℝ} {div : ℝ → ℝ → ℝ} {divC : ℂ → ℂ → ℂ}
    (hdiv : ExactDiv div) (hdivC : ExactDiv divC)
    (L : Mat ℝ) (n : ℕ) (hd : ∀ k, k < n → L.get k k ≠ 0) (b : Vec ℝ) :
    SOLVE1 (complexOps sqrt divC) (L.map Complex.ofReal) n (b.map Complex.ofReal)
      = (backSub div L n (forwardSub div L n b)).map Complex.ofReal := by
  have hf : forwardSub divC (L.map Complex.ofReal) n (b.map Complex.ofReal)
      = (forwardSub div L n b).map Complex.ofReal := by
    symm
    refine forUp_comm_lt (Vec.map Complex.ofReal) _ _ n (fun k hk x => ?_) b
    have hin := forUp_comm (Vec.map Complex.ofReal)
      (fun i x => x.set k (x.get k - x.get i * L.get k i))
      (fun i (x : Vec ℂ) => x.set k (x.get k - x.get i * (L.map Complex.ofReal).get k i))
      (fun i w => by
        rw [Vec.map_set]
        simp [Vec.map, Mat.map]) k x
    show (Vec.set _ k _).map Complex.ofReal = Vec.set _ k _
    rw [Vec.map_set, ← div_ofReal hdiv hdivC _ _ (hd k hk), ← hin]
    rfl
  rw [SOLVE1_eq]
  show forDown n _ (forwardSub divC (L.map Complex.ofReal) n (b.map Complex.ofReal)) = _
  rw [hf]
  symm
  refine forDown_comm_lt (Vec.map Complex.ofReal) _ _ n (fun k hk x => ?_)
    (forwardSub div L n b)
  have hin := forFrom_comm (Vec.map Complex.ofReal)
    (fun i x => x.set k (x.get k - x.get i * L.get i k))
    (fun i (x : Vec ℂ) => x.set k (x.get k - x.get i
      * (complexOps sqrt divC).conj ((L.map Complex.ofReal).get i k)))
    (fun i w => by
      rw [Vec.map_set]
      simp [Vec.map, Mat.map, complexOps]) (k + 1) n x
  show (Vec.set _ k _).map Complex.ofReal = Vec.set _ k _
  rw [Vec.map_set, ← div_ofReal hdiv hdivC _ _ (hd k hk), ← hin]
  rfl

/-- The run of both `dec` on `[[0,1],[1,1]]`: the first pivot is zero and `L[1][0]` is the
result of a division by zero. -/
theorem exZ_dec (div : ℝ → ℝ → ℝ) (divC : ℂ → ℂ → ℂ) (init : ℕ → ℕ → ℝ)
    (initC : ℕ → ℕ → ℂ) (c : Cholesky ℝ) (cC : Cholesky ℂ) :
    (c.dec Real.sqrt div init exZ).L.get 1 0 = div 1 0 ∧
    (cC.decC (complexOps Real.sqrt divC) initC ((exZ : Mat ℝ).map Complex.ofReal)).L.get 1 0
      = divC 1 0 := by
  obtain ⟨-, -, h3, -⟩ := dec_square Real.sqrt div init c exZ rfl
  obtain ⟨-, -, g3, -⟩ := decC_square (complexOps Real.sqrt divC) initC cC
    ((exZ : Mat ℝ).map Complex.ofReal) rfl
  have r0 := h3 0 (by decide)
  have r1 := h3 1 (by decide)
  have s0 := g3 0 (by decide)
  have s1 := g3 1 (by decide)
  have l00 : (c.dec Real.sqrt div init exZ).L.get 0 0 = 0 := by
    rw [r0.2.1]
    simp [pivot, exZ]
  have m00 : (cC.decC (complexOps Real.sqrt divC) initC
      ((exZ : Mat ℝ).map Complex.ofReal)).L.get 0 0 = 0 := by
    rw [s0.2.1]
    simp [cpivot, exZ, Mat.map, complexOps]
  constructor
  · rw [r1.1 0 (by decide), l00]
    simp [exZ]
  · rw [s1.1 0 (by decide), m00]
    simp [exZ, Mat.map, complexOps]

end embedSolve

/-! ## A factor with positive diagonal obeys the recursion -/

section roundTrip

theorem rowOK_of_factor {div : ℝ → ℝ → ℝ} (hdiv : ExactDiv div) {A L : Mat ℝ} {n : ℕ}
    (hupper : ∀ r k, r < k → k < n → L.get r k = 0)
    (hpos : ∀ k, k < n → 0 < L.get k k)
    (hA : ∀ r c, r < n → c < n → ∑ i in range n, L.get r i * L.get c i = A.get r c) :
    ∀ j, j < n → RowOK Real.sqrt div A L n j ∧ pivot A L j = L.get j j * L.get j j := by
  intro j hj
  have hcut : ∀ r c, r < n → c < n →
      ∑ i in range (c + 1), L.get r i * L.get c i = A.get r c := by
    intro r c hr hc
    rw [← hA r c hr hc]
    symm
    exact sum_range_of_zero (by omega) (fun i h1 h2 => by
      rw [hupper c i (by omega) h2, mul_zero])
  have hp : pivot A L j = L.get j j * L.get j j := by
    unfold pivot
    rw [← hcut j j hj hj, sum_range_succ]
    ring
  refine ⟨⟨fun k hk => ?_, ?_, fun k hjk hkn => hupper j k hjk hkn⟩, hp⟩
  · have hne : L.get k k ≠ 0 := ne_of_gt (hpos k (by omega))
    rw [hdiv _ _ hne, ← hcut j k hj (by omega), sum_range_succ]
    have e : ∑ i in range k, L.get j i * L.get k i = ∑ i in range k, L.get k i * L.get j i :=
      sum_congr rfl (fun i _ => mul_comm _ _)
    rw [e]
    field_simp [hne]
  · rw [hp, if_pos (mul_pos (hpos j hj) (hpos j hj)),
      Real.sqrt_mul_self (le_of_lt (hpos j hj))]

end roundTrip


/-! ## The claims -/

/-- C1. Real path, exact real arithmetic: for every `n` and every `n × n` real matrix `A`
that is symmetric and positive definite (`Matrix.PosDef` contains the symmetry), after
`dec(A)` the flag `isSpd()` is true, the factor `L = getL()` is `n × n`, and `L*L' = A`.
The previous state `c`, the initial contents `init` of the fresh matrix and the value of a
division by zero are arbitrary. -/
theorem dec_posDef_factorizes (n : ℕ) (A : Mat ℝ) (hr : A.rows = n) (hc : A.cols = n)
    (hA : (A.toMatrix n n).PosDef) (div : ℝ → ℝ → ℝ) (hdiv : ExactDiv div)
    (init : ℕ → ℕ → ℝ) (c : Cholesky ℝ) :
    (c.dec Real.sqrt div init A).isSpd = true ∧
    (c.dec Real.sqrt div init A).getL.rows = n ∧
    (c.dec Real.sqrt div init A).getL.cols = n ∧
    (c.dec Real.sqrt div init A).getL.toMatrix n n
      * ((c.dec Real.sqrt div init A).getL.toMatrix n n).transpose = A.toMatrix n n := by
  obtain ⟨h1, h2, h3, h4⟩ := dec_square Real.sqrt div init c A (hr.trans hc.symm)
  rw [hc] at h1 h2 h3 h4
  have hsym := posDef_symm hA
  have hpos := pivots_pos hdiv h3 hsym (posDef_quad hA)
  refine ⟨h4.mpr (fun j hj => ⟨fun k hk => hsym k j (by omega) hj, hpos j hj⟩), h1, h2, ?_⟩
  exact (toMatrix_mul_transpose _ A n).mpr (factor_full hdiv h3 hpos hsym)

/-- Witness of C1 at `A = [[4,2],[2,3]]`, on a fresh object. -/
theorem dec_posDef_factorizes_witness :
    ((Cholesky.new : Cholesky ℝ).dec Real.sqrt (fun x y => x / y) (fun _ _ => 0) exA).isSpd
      = true ∧
    ((Cholesky.new : Cholesky ℝ).dec Real.sqrt (fun x y => x / y) (fun _ _ => 0) exA).getL.rows
      = 2 ∧
    ((Cholesky.new : Cholesky ℝ).dec Real.sqrt (fun x y => x / y) (fun _ _ => 0) exA).getL.cols
      = 2 ∧
    ((Cholesky.new : Cholesky ℝ).dec Real.sqrt (fun x y => x / y) (fun _ _ => 0)
        exA).getL.toMatrix 2 2
      * (((Cholesky.new : Cholesky ℝ).dec Real.sqrt (fun x y => x / y) (fun _ _ => 0)
        exA).getL.toMatrix 2 2).transpose = (exA : Mat ℝ).toMatrix 2 2 :=
  dec_posDef_factorizes 2 exA rfl rfl exA_posDef (fun x y => x / y) (fun _ _ _ => rfl)
    (fun _ _ => 0) Cholesky.new

/-- C3. Real path, exact real arithmetic: for every `n × n` real symmetric positive definite
matrix `A` and every vector `b` of length `n`, after `dec(A)` the vector `x = solve(b)` has
length `n` and satisfies `A*x = b`. -/
theorem solve_posDef_solves (n : ℕ) (A : Mat ℝ) (hr : A.rows = n) (hc : A.cols = n)
    (hA : (A.toMatrix n n).PosDef) (div : ℝ → ℝ → ℝ) (hdiv : ExactDiv div)
    (init : ℕ → ℕ → ℝ) (c : Cholesky ℝ) (b : Vec ℝ) (hb : b.dim = n) :
    ((c.dec Real.sqrt div init A).solve div b).dim = n ∧
    Matrix.mulVec (A.toMatrix n n) (((c.dec Real.sqrt div init A).solve div b).toFun n)
      = b.toFun n := by
  obtain ⟨h1, h2, h3, h4⟩ := dec_square Real.sqrt div init c A (hr.trans hc.symm)
  rw [hc] at h1 h2 h3 h4
  have hsym := posDef_symm hA
  have hpos := pivots_pos hdiv h3 hsym (posDef_quad hA)
  have hfac := factor_full hdiv h3 hpos hsym
  obtain ⟨s1, s2⟩ := solve_spec hdiv (c.dec Real.sqrt div init A) n h1
    (fun r k hrk hk => (h3 r (by omega)).2.2 k hrk hk)
    (fun k hk => ne_of_gt ((h3 k hk).diag_pos (hpos k hk)).1) b hb
  refine ⟨s1, (toMatrix_mulVec A _ b n).mpr (fun r hr' => ?_)⟩
  rw [← s2 r hr']
  exact sum_congr rfl (fun k hk => by rw [hfac r k hr' (mem_range.mp hk)])

/-- Witness of C3 at `A = [[4,2],[2,3]]` and `b = [6,5]`. -/
theorem solve_posDef_solves_witness :
    (((Cholesky.new : Cholesky ℝ).dec Real.sqrt (fun x y => x / y) (fun _ _ => 0) exA).solve
      (fun x y => x / y) exb).dim = 2 ∧
    Matrix.mulVec ((exA : Mat ℝ).toMatrix 2 2)
      ((((Cholesky.new : Cholesky ℝ).dec Real.sqrt (fun x y => x / y) (fun _ _ => 0)
        exA).solve (fun x y => x / y) exb).toFun 2) = (exb : Vec ℝ).toFun 2 :=
  solve_posDef_solves 2 exA rfl rfl exA_posDef (fun x y => x / y) (fun _ _ _ => rfl)
    (fun _ _ => 0) Cholesky.new exb rfl

/-- C4. Soundness of the flag, real path, exact real arithmetic: for every square real
matrix `A`, if `isSpd()` is true after `dec(A)` then `A` is symmetric, `getL()*getL()' = A`,
and `A` is positive definite. -/
theorem dec_flag_sound (n : ℕ) (A : Mat ℝ) (hr : A.rows = n) (hc : A.cols = n)
    (div : ℝ → ℝ → ℝ) (hdiv : ExactDiv div) (init : ℕ → ℕ → ℝ) (c : Cholesky ℝ)
    (hspd : (c.dec Real.sqrt div init A).isSpd = true) :
    (A.toMatrix n n).IsSymm ∧
    (c.dec Real.sqrt div init A).getL.toMatrix n n
      * ((c.dec Real.sqrt div init A).getL.toMatrix n n).transpose = A.toMatrix n n ∧
    (A.toMatrix n n).PosDef := by
  obtain ⟨h1, h2, h3, h4⟩ := dec_square Real.sqrt div init c A (hr.trans hc.symm)
  rw [hc] at h1 h2 h3 h4
  have hall := h4.mp hspd
  have hpos : ∀ j, j < n → 0 < pivot A (c.dec Real.sqrt div init A).L j :=
    fun j hj => (hall j hj).2
  have hsym : ∀ r k, r < n → k < n → A.get r k = A.get k r := by
    intro r k hr' hk
    rcases Nat.lt_trichotomy r k with h | h | h
    · exact (hall k hk).1 r h
    · rw [h]
    · exact ((hall r hr').1 k h).symm
  have hfac : (c.dec Real.sqrt div init A).getL.toMatrix n n
      * ((c.dec Real.sqrt div init A).getL.toMatrix n n).transpose = A.toMatrix n n :=
    (toMatrix_mul_transpose _ A n).mpr (factor_full hdiv h3 hpos hsym)
  refine ⟨?_, hfac, ?_⟩
  · ext i j
    exact hsym j.val i.val j.isLt i.isLt
  · exact posDef_of_factor (fun r k hrk hk => (h3 r (by omega)).2.2 k hrk hk)
      (fun k hk => ne_of_gt ((h3 k hk).diag_pos (hpos k hk)).1) hfac


/-- Witness of C4 at `A = [[4,2],[2,3]]`, whose flag is true. -/
theorem dec_flag_sound_witness :
    ((exA : Mat ℝ).toMatrix 2 2).IsSymm ∧
    ((Cholesky.new : Cholesky ℝ).dec Real.sqrt (fun x y => x / y) (fun _ _ => 0)
        exA).getL.toMatrix 2 2
      * (((Cholesky.new : Cholesky ℝ).dec Real.sqrt (fun x y => x / y) (fun _ _ => 0)
        exA).getL.toMatrix 2 2).transpose = (exA : Mat ℝ).toMatrix 2 2 ∧
    ((exA : Mat ℝ).toMatrix 2 2).PosDef :=
  dec_flag_sound 2 exA rfl rfl (fun x y => x / y) (fun _ _ _ => rfl) (fun _ _ => 0)
    Cholesky.new (exA_dec (fun x y => x / y) (fun _ _ _ => rfl) (fun _ _ => 0) Cholesky.new).1

section complexBug
open scoped ComplexOrder

/-- C2 (the defect, evaluated). The matrix `exH = [[1,-i,1],[i,2,1+i],[1,1-i,3]]` is
Hermitian positive definite, yet after the complex `dec(exH)` on a fresh object the flag
`isSpd()` is false and the factor `L` does not satisfy `L*Lᴴ = exH`: the inner product of
`MAINLOOP` conjugates row `j` instead of row `k`, so `L[2][1] = 1-2i` and the third pivot
is `-3`. -/
theorem decC_fails_on_posDef :
    (exH.toMatrix 3 3).PosDef ∧
    ((Cholesky.new : Cholesky ℂ).decC (complexOps Real.sqrt (fun x y => x / y))
      (fun _ _ => 0) exH).isSpd = false ∧
    ((Cholesky.new : Cholesky ℂ).decC (complexOps Real.sqrt (fun x y => x / y))
      (fun _ _ => 0) exH).getL.get 2 1 = 1 - 2 * Complex.I ∧
    ((Cholesky.new : Cholesky ℂ).decC (complexOps Real.sqrt (fun x y => x / y))
        (fun _ _ => 0) exH).getL.toMatrix 3 3
      * (((Cholesky.new : Cholesky ℂ).decC (complexOps Real.sqrt (fun x y => x / y))
        (fun _ _ => 0) exH).getL.toMatrix 3 3).conjTranspose ≠ exH.toMatrix 3 3 := by
  obtain ⟨l10, l11, l12, l20, l21, p2⟩ :=
    exH_decC (fun x y => x / y) (fun _ _ _ => rfl) (fun _ _ => 0) Cholesky.new
  obtain ⟨-, -, -, h4⟩ := decC_square (complexOps Real.sqrt (fun x y => x / y))
    (fun _ _ => 0) Cholesky.new exH rfl
  refine ⟨exH_posDef, ?_, l21, ?_⟩
  · rw [Cholesky.isSpd, Bool.eq_false_iff]
    intro h
    have := (h4.mp h 2 (by decide)).2.2
    rw [p2] at this
    norm_num at this
  · intro h
    have e := congrFun (congrFun h 2) 1
    rw [Matrix.mul_apply, Fin.sum_univ_three] at e
    simp only [Mat.toMatrix, Cholesky.getL, Matrix.conjTranspose_apply, Matrix.of_apply,
      Fin.val_zero, Fin.val_one, Fin.val_two, l10, l11, l12, l20, l21] at e
    have him := congrArg Complex.im e
    simp [exH] at him

end complexBug


/-- C5 as stated fails: on the object that has factorized `[[4,2],[2,3]]`, `dec` of the
`2 × 3` matrix `exR` clears the flag and returns with the `2 × 2` factor of the previous
call still in place, so `getL()` is not empty. -/
theorem dec_rectangular_counterexample :
    (exR : Mat ℝ).rows ≠ (exR : Mat ℝ).cols ∧
    ((((Cholesky.new : Cholesky ℝ).dec Real.sqrt (fun x y => x / y) (fun _ _ => 0) exA).dec
      Real.sqrt (fun x y => x / y) (fun _ _ => 0) exR).isSpd = false) ∧
    ((((Cholesky.new : Cholesky ℝ).dec Real.sqrt (fun x y => x / y) (fun _ _ => 0) exA).dec
      Real.sqrt (fun x y => x / y) (fun _ _ => 0) exR).getL.rows = 2) ∧
    ((((Cholesky.new : Cholesky ℝ).dec Real.sqrt (fun x y => x / y) (fun _ _ => 0) exA).dec
      Real.sqrt (fun x y => x / y) (fun _ _ => 0) exR).getL.cols = 2) := by
  have hne : (exR : Mat ℝ).rows ≠ (exR : Mat ℝ).cols := by decide
  obtain ⟨-, h1, h2, -⟩ := exA_dec (fun x y => x / y) (fun _ _ _ => rfl)
    (fun _ _ => 0) Cholesky.new
  rw [dec_not_square _ _ _ _ _ hne]
  exact ⟨hne, rfl, h1, h2⟩

/-- C5, amended. For every matrix `A` with `rows() ≠ cols()` and every prior state, `isSpd()`
is false after `dec(A)` in the real path and in the complex path; in the real path `getL()`
is the factor of the prior state, unchanged, hence empty (0 rows, 0 columns) on a freshly
constructed object. -/
theorem dec_rectangular (α K : Type) [LinearOrderedField α] [Field K] [DecidableEq K] :
    (∀ A : Mat α, A.rows ≠ A.cols → ∀ (sqrt : α → α) (div : α → α → α) (init : ℕ → ℕ → α)
      (c : Cholesky α),
      (c.dec sqrt div init A).isSpd = false ∧ (c.dec sqrt div init A).getL = c.getL) ∧
    (∀ A : Mat α, A.rows ≠ A.cols → ∀ (sqrt : α → α) (div : α → α → α) (init : ℕ → ℕ → α),
      ((Cholesky.new : Cholesky α).dec sqrt div init A).getL.rows = 0 ∧
      ((Cholesky.new : Cholesky α).dec sqrt div init A).getL.cols = 0) ∧
    (∀ A : Mat K, A.rows ≠ A.cols → ∀ (O : ComplexOps α K) (init : ℕ → ℕ → K)
      (c : Cholesky K), (c.decC O init A).isSpd = false) := by
  refine ⟨fun A hA sqrt div init c => ?_, fun A hA sqrt div init => ?_,
    fun A hA O init c => ?_⟩
  · rw [dec_not_square sqrt div init c A hA]
    exact ⟨rfl, rfl⟩
  · rw [dec_not_square sqrt div init _ A hA]
    exact ⟨rfl, rfl⟩
  · rw [decC_not_square O init c A hA]
    rfl

/-- Witness of the amended C5 at the `2 × 3` matrix `exR`, on a fresh object. -/
theorem dec_rectangular_witness :
    ((Cholesky.new : Cholesky ℝ).dec Real.sqrt (fun x y => x / y) (fun _ _ => 0) exR).getL.rows
      = 0 ∧
    ((Cholesky.new : Cholesky ℝ).dec Real.sqrt (fun x y => x / y) (fun _ _ => 0) exR).getL.cols
      = 0 :=
  (dec_rectangular ℝ ℂ).2.1 exR (by decide) Real.sqrt (fun x y => x / y) (fun _ _ => 0)

/-- C6. For every decomposition state whose factor has `n` rows: `solve(b)` on a vector with
`b.dim() ≠ n` returns the empty vector and `solve(B)` on a matrix with `B.rows() ≠ n` returns
the empty (0 × 0) matrix; when the dimension matches, the result has the shape of the
argument.  Stated for the generic members and for the complex specialisations. -/
theorem solve_shape (α K : Type) [Field K] (c : Cholesky K) (n : ℕ) (hn : c.getL.rows = n)
    (div : K → K → K) (O : ComplexOps α K) :
    (∀ b : Vec K, b.dim ≠ n → (c.solve div b).dim = 0 ∧ (c.solveC O b).dim = 0) ∧
    (∀ B : Mat K, B.rows ≠ n →
      ((c.solveM div B).rows = 0 ∧ (c.solveM div B).cols = 0) ∧
      ((c.solveMC O B).rows = 0 ∧ (c.solveMC O B).cols = 0)) ∧
    (∀ b : Vec K, b.dim = n → (c.solve div b).dim = b.dim ∧ (c.solveC O b).dim = b.dim) ∧
    (∀ B : Mat K, B.rows = n →
      ((c.solveM div B).rows = B.rows ∧ (c.solveM div B).cols = B.cols) ∧
      ((c.solveMC O B).rows = B.rows ∧ (c.solveMC O B).cols = B.cols)) := by
  have hn' : c.L.rows = n := hn
  refine ⟨fun b hb => ?_, fun B hB => ?_, fun b hb => ?_, fun B hB => ?_⟩
  · simp [Cholesky.solve, Cholesky.solveC, hn', hb, Vec.empty]
  · simp [Cholesky.solveM, Cholesky.solveMC, hn', hB, Mat.empty]
  · have e1 : c.solve div b = backSub div c.L n (forwardSub div c.L n b) := by
      simp [Cholesky.solve, hn', hb]
    have e2 : c.solveC O b = SOLVE1 O c.L n b := by
      simp [Cholesky.solveC, hn', hb]
    rw [e1, e2, backSub_dim, forwardSub_dim, SOLVE1_dim]
    exact ⟨rfl, rfl⟩
  · have e1 : c.solveM div B = backSubM div c.L n B.cols (forwardSubM div c.L n B.cols B) := by
      simp [Cholesky.solveM, hn', hB]
    have e2 : c.solveMC O B = SOLVE2 O c.L n B B := by
      simp [Cholesky.solveMC, hn', hB]
    rw [e1, e2]
    exact ⟨⟨(backSubM_shape _ _ _ _ _).1.trans (forwardSubM_shape _ _ _ _ _).1,
      (backSubM_shape _ _ _ _ _).2.trans (forwardSubM_shape _ _ _ _ _).2⟩,
      SOLVE2_shape O c.L n B B⟩

/-- Witness of C6: the object that has factorized `[[4,2],[2,3]]` (factor of 2 rows), the
right-hand side `[6,5]` of length 2. -/
theorem solve_shape_witness :
    (((Cholesky.new : Cholesky ℝ).dec Real.sqrt (fun x y => x / y) (fun _ _ => 0) exA).solve
      (fun x y => x / y) exb).dim = (exb : Vec ℝ).dim :=
  (((solve_shape ℝ ℝ
    ((Cholesky.new : Cholesky ℝ).dec Real.sqrt (fun x y => x / y) (fun _ _ => 0) exA) 2
    (exA_dec (fun x y => x / y) (fun _ _ _ => rfl) (fun _ _ => 0) Cholesky.new).2.1
    (fun x y => x / y)
    { sqrt := Real.sqrt, div := fun x y => x / y, real := id, imag := fun _ => 0,
      norm := fun x => x * x, conj := id, ofReal := id }).2.2.1) exb rfl).1


/-- C7. Triangularity: for every square `n × n` matrix `A`, positive definite or not, in the
real path and in the complex path, after `dec(A)` the factor is `n × n` and every entry
`L[j][k]` with `j < k < n` is exactly zero.  The scalar primitives, the prior state and the
initial contents of the fresh matrix are arbitrary. -/
theorem dec_lower_triangular (α K : Type) [LinearOrderedField α] [Field K] [DecidableEq K]
    (n : ℕ) :
    (∀ A : Mat α, A.rows = n → A.cols = n → ∀ (sqrt : α → α) (div : α → α → α)
      (init : ℕ → ℕ → α) (c : Cholesky α),
      (c.dec sqrt div init A).getL.rows = n ∧ (c.dec sqrt div init A).getL.cols = n ∧
      ∀ j k, j < k → k < n → (c.dec sqrt div init A).getL.get j k = 0) ∧
    (∀ A : Mat K, A.rows = n → A.cols = n → ∀ (O : ComplexOps α K) (init : ℕ → ℕ → K)
      (c : Cholesky K),
      (c.decC O init A).getL.rows = n ∧ (c.decC O init A).getL.cols = n ∧
      ∀ j k, j < k → k < n → (c.decC O init A).getL.get j k = 0) := by
  constructor
  · intro A hr hc sqrt div init c
    obtain ⟨h1, h2, h3, -⟩ := dec_square sqrt div init c A (hr.trans hc.symm)
    rw [hc] at h1 h2 h3
    exact ⟨h1, h2, fun j k hjk hk => (h3 j (by omega)).2.2 k hjk hk⟩
  · intro A hr hc O init c
    obtain ⟨h1, h2, h3, -⟩ := decC_square O init c A (hr.trans hc.symm)
    rw [hc] at h1 h2 h3
    exact ⟨h1, h2, fun j k hjk hk => (h3 j (by omega)).2.2 k hjk hk⟩

/-- Witness of C7 at `[[1,2],[2,1]]`, which is not positive definite. -/
theorem dec_lower_triangular_witness :
    ((Cholesky.new : Cholesky ℝ).dec Real.sqrt (fun x y => x / y) (fun _ _ => 7) exB).getL.rows
      = 2 ∧
    ((Cholesky.new : Cholesky ℝ).dec Real.sqrt (fun x y => x / y) (fun _ _ => 7) exB).getL.cols
      = 2 ∧
    ∀ j k, j < k → k < 2 →
      ((Cholesky.new : Cholesky ℝ).dec Real.sqrt (fun x y => x / y) (fun _ _ => 7)
        exB).getL.get j k = 0 :=
  (dec_lower_triangular ℝ ℂ 2).1 exB rfl rfl Real.sqrt (fun x y => x / y) (fun _ _ => 7)
    Cholesky.new

/-- C8. Non-symmetric detection: for every square matrix `A`, if some pair `k < j < n` has
`A[k][j] ≠ A[j][k]` (real path), respectively `A[k][j] ≠ conj(A[j][k])` or some diagonal
entry has `imag(A[j][j]) ≠ 0` (complex path), then `isSpd()` is false after `dec(A)`.  The
bound `n ≥ 2` of the claim follows from `k < j < n`; the diagonal test holds for every `n`. -/
theorem dec_detects_asymmetry (α K : Type) [LinearOrderedField α] [Field K] [DecidableEq K]
    (n : ℕ) :
    (∀ A : Mat α, A.rows = n → A.cols = n →
      (∃ k j, k < j ∧ j < n ∧ A.get k j ≠ A.get j k) →
      ∀ (sqrt : α → α) (div : α → α → α) (init : ℕ → ℕ → α) (c : Cholesky α),
        (c.dec sqrt div init A).isSpd = false) ∧
    (∀ A : Mat K, A.rows = n → A.cols = n → ∀ O : ComplexOps α K,
      ((∃ k j, k < j ∧ j < n ∧ A.get k j ≠ O.conj (A.get j k)) ∨
        (∃ j, j < n ∧ O.imag (A.get j j) ≠ 0)) →
      ∀ (init : ℕ → ℕ → K) (c : Cholesky K), (c.decC O init A).isSpd = false) := by
  constructor
  · rintro A hr hc ⟨k, j, hkj, hj, hne⟩ sqrt div init c
    obtain ⟨-, -, -, h4⟩ := dec_square sqrt div init c A (hr.trans hc.symm)
    rw [hc] at h4
    rw [Cholesky.isSpd, Bool.eq_false_iff]
    intro h
    exact hne ((h4.mp h j hj).1 k hkj)
  · intro A hr hc O hbad init c
    obtain ⟨-, -, -, h4⟩ := decC_square O init c A (hr.trans hc.symm)
    rw [hc] at h4
    rw [Cholesky.isSpd, Bool.eq_false_iff]
    intro h
    rcases hbad with ⟨k, j, hkj, hj, hne⟩ | ⟨j, hj, hne⟩
    · exact hne ((h4.mp h j hj).2.1 k hkj)
    · exact hne (h4.mp h j hj).1

/-- Witness of C8 at `[[1,2],[3,4]]`, where `A[0][1] = 2 ≠ 3 = A[1][0]`. -/
theorem dec_detects_asymmetry_witness :
    ((Cholesky.new : Cholesky ℝ).dec Real.sqrt (fun x y => x / y) (fun _ _ => 0) exN).isSpd
      = false :=
  (dec_detects_asymmetry ℝ ℂ 2).1 exN rfl rfl ⟨0, 1, by decide, by decide, by simp [exN]⟩
    Real.sqrt (fun x y => x / y) (fun _ _ => 0) Cholesky.new

/-- C9. Non-positive pivot clamping, real path: for every square `n × n` real matrix `A` the
factor is `n × n` and, for every column `j < n`, the diagonal entry is
`L[j][j] = sqrt(max(d_j, 0))` for the pivot `d_j = A[j][j] - Σ_{k<j} L[j][k]²`: it is `≥ 0`;
whenever `d_j ≤ 0` it is exactly `0` and `isSpd()` is false; whenever `d_j > 0` it is the
positive root of `d_j`.  In particular for `A = [[1,2],[2,1]]`, `isSpd()` is false and the
factor is `[[1,0],[2,0]]`, so `L[1][1] = 0`.  The square root of a negative number and the
result of a division by zero are arbitrary: the code never takes the former. -/
theorem dec_pivot_clamped :
    (∀ (n : ℕ) (A : Mat ℝ), A.rows = n → A.cols = n → ∀ sqrt : ℝ → ℝ, ExactSqrt sqrt →
      ∀ (div : ℝ → ℝ → ℝ) (init : ℕ → ℕ → ℝ) (c : Cholesky ℝ),
      (c.dec sqrt div init A).getL.rows = n ∧ (c.dec sqrt div init A).getL.cols = n ∧
      ∀ j, j < n →
        0 ≤ (c.dec sqrt div init A).getL.get j j ∧
        (c.dec sqrt div init A).getL.get j j
          = Real.sqrt (max (pivot A (c.dec sqrt div init A).getL j) 0) ∧
        (pivot A (c.dec sqrt div init A).getL j ≤ 0 →
          (c.dec sqrt div init A).getL.get j j = 0 ∧
          (c.dec sqrt div init A).isSpd = false) ∧
        (0 < pivot A (c.dec sqrt div init A).getL j →
          0 < (c.dec sqrt div init A).getL.get j j ∧
          (c.dec sqrt div init A).getL.get j j * (c.dec sqrt div init A).getL.get j j
            = pivot A (c.dec sqrt div init A).getL j)) ∧
    (∀ sqrt : ℝ → ℝ, ExactSqrt sqrt → ∀ div : ℝ → ℝ → ℝ, ExactDiv div →
      ∀ (init : ℕ → ℕ → ℝ) (c : Cholesky ℝ),
      (c.dec sqrt div init exB).isSpd = false ∧
      (c.dec sqrt div init exB).getL.rows = 2 ∧
      (c.dec sqrt div init exB).getL.cols = 2 ∧
      (c.dec sqrt div init exB).getL.get 0 0 = 1 ∧
      (c.dec sqrt div init exB).getL.get 0 1 = 0 ∧
      (c.dec sqrt div init exB).getL.get 1 0 = 2 ∧
      (c.dec sqrt div init exB).getL.get 1 1 = 0) := by
  have gen : ∀ (n : ℕ) (A : Mat ℝ), A.rows = n → A.cols = n → ∀ sqrt : ℝ → ℝ,
      ExactSqrt sqrt → ∀ (div : ℝ → ℝ → ℝ) (init : ℕ → ℕ → ℝ) (c : Cholesky ℝ),
      (c.dec sqrt div init A).getL.rows = n ∧ (c.dec sqrt div init A).getL.cols = n ∧
      ∀ j, j < n →
        0 ≤ (c.dec sqrt div init A).getL.get j j ∧
        (c.dec sqrt div init A).getL.get j j
          = Real.sqrt (max (pivot A (c.dec sqrt div init A).getL j) 0) ∧
        (pivot A (c.dec sqrt div init A).getL j ≤ 0 →
          (c.dec sqrt div init A).getL.get j j = 0 ∧
          (c.dec sqrt div init A).isSpd = false) ∧
        (0 < pivot A (c.dec sqrt div init A).getL j →
          0 < (c.dec sqrt div init A).getL.get j j ∧
          (c.dec sqrt div init A).getL.get j j * (c.dec sqrt div init A).getL.get j j
            = pivot A (c.dec sqrt div init A).getL j) := by
    intro n A hr hc sqrt hs div init c
    obtain ⟨h1, h2, h3, h4⟩ := dec_square sqrt div init c A (hr.trans hc.symm)
    rw [hc] at h1 h2 h3 h4
    refine ⟨h1, h2, fun j hj => ?_⟩
    have hrow := (h3 j hj).of_exactSqrt hs
    refine ⟨hrow.diag_nonneg, ?_, fun hp => ⟨hrow.diag_zero hp, ?_⟩, fun hp => hrow.diag_pos hp⟩
    · show (c.dec sqrt div init A).L.get j j = _
      rw [hrow.2.1]
      congr 1
      split_ifs with hp
      · exact (max_eq_left (le_of_lt hp)).symm
      · exact (max_eq_right (not_lt.mp hp)).symm
    · rw [Cholesky.isSpd, Bool.eq_false_iff]
      intro h
      exact absurd (h4.mp h j hj).2 (not_lt.mpr hp)
  refine ⟨gen, fun sqrt hs div hdiv init c => ?_⟩
  obtain ⟨l00, l10, p1⟩ := exB_dec sqrt hs div hdiv init c
  obtain ⟨g1, g2, g3⟩ := gen 2 exB rfl rfl sqrt hs div init c
  obtain ⟨-, -, u3, -⟩ := dec_square sqrt div init c exB rfl
  have hp : pivot exB (c.dec sqrt div init exB).getL 1 ≤ 0 := by
    rw [Cholesky.getL, p1]
    norm_num
  have hz := (g3 1 (by decide)).2.2.1 hp
  exact ⟨hz.2, g1, g2, l00, (u3 0 (by decide)).2.2 1 (by decide) (by decide), l10, hz.1⟩

/-- Witness of C9 at `[[1,2],[2,1]]`, whose second pivot is `1 - 4 = -3`, with a square root
that returns `1` on the negative numbers. -/
theorem dec_pivot_clamped_witness :
    ((Cholesky.new : Cholesky ℝ).dec (fun x => if 0 ≤ x then Real.sqrt x else 1)
      (fun x y => x / y) (fun _ _ => 0) exB).isSpd = false ∧
    ((Cholesky.new : Cholesky ℝ).dec (fun x => if 0 ≤ x then Real.sqrt x else 1)
      (fun x y => x / y) (fun _ _ => 0) exB).getL.rows = 2 ∧
    ((Cholesky.new : Cholesky ℝ).dec (fun x => if 0 ≤ x then Real.sqrt x else 1)
      (fun x y => x / y) (fun _ _ => 0) exB).getL.cols = 2 ∧
    ((Cholesky.new : Cholesky ℝ).dec (fun x => if 0 ≤ x then Real.sqrt x else 1)
      (fun x y => x / y) (fun _ _ => 0) exB).getL.get 0 0 = 1 ∧
    ((Cholesky.new : Cholesky ℝ).dec (fun x => if 0 ≤ x then Real.sqrt x else 1)
      (fun x y => x / y) (fun _ _ => 0) exB).getL.get 0 1 = 0 ∧
    ((Cholesky.new : Cholesky ℝ).dec (fun x => if 0 ≤ x then Real.sqrt x else 1)
      (fun x y => x / y) (fun _ _ => 0) exB).getL.get 1 0 = 2 ∧
    ((Cholesky.new : Cholesky ℝ).dec (fun x => if 0 ≤ x then Real.sqrt x else 1)
      (fun x y => x / y) (fun _ _ => 0) exB).getL.get 1 1 = 0 :=
  dec_pivot_clamped.2 (fun x => if 0 ≤ x then Real.sqrt x else 1)
    (fun _ hx => if_pos hx) (fun x y => x / y) (fun _ _ _ => rfl) (fun _ _ => 0) Cholesky.new

/-- C10. Concrete factorization scenario, real path, exact arithmetic: for
`A = [[4,2],[2,3]]`, `dec(A)` gives `isSpd() = true` and the `2 × 2` factor
`[[2,0],[1,√2]]`. -/
theorem dec_concrete_factor (div : ℝ → ℝ → ℝ) (hdiv : ExactDiv div) (init : ℕ → ℕ → ℝ)
    (c : Cholesky ℝ) :
    (c.dec Real.sqrt div init exA).isSpd = true ∧
    (c.dec Real.sqrt div init exA).getL.rows = 2 ∧
    (c.dec Real.sqrt div init exA).getL.cols = 2 ∧
    (c.dec Real.sqrt div init exA).getL.get 0 0 = 2 ∧
    (c.dec Real.sqrt div init exA).getL.get 0 1 = 0 ∧
    (c.dec Real.sqrt div init exA).getL.get 1 0 = 1 ∧
    (c.dec Real.sqrt div init exA).getL.get 1 1 = Real.sqrt 2 :=
  exA_dec div hdiv init c

/-- Witness of C10 with the division of `ℝ`, on a fresh object. -/
theorem dec_concrete_factor_witness :
    ((Cholesky.new : Cholesky ℝ).dec Real.sqrt (fun x y => x / y) (fun _ _ => 0) exA).isSpd
      = true ∧
    ((Cholesky.new : Cholesky ℝ).dec Real.sqrt (fun x y => x / y) (fun _ _ => 0)
      exA).getL.get 1 1 = Real.sqrt 2 :=
  ⟨(dec_concrete_factor (fun x y => x / y) (fun _ _ _ => rfl) (fun _ _ => 0) Cholesky.new).1,
    (dec_concrete_factor (fun x y => x / y) (fun _ _ _ => rfl) (fun _ _ => 0)
      Cholesky.new).2.2.2.2.2.2⟩


/-- C11 as stated fails: after `dec` of `[[4,2],[2,3]]`, `solve` of `[6,5]` returns `[1,1]`,
not `[0.5,1.5]`; and `[0.5,1.5]` does not satisfy `4*x0 + 2*x1 = 6`. -/
theorem solve_concrete_counterexample :
    (((Cholesky.new : Cholesky ℝ).dec Real.sqrt (fun x y => x / y) (fun _ _ => 0) exA).solve
      (fun x y => x / y) exb).get 0 = 1 ∧
    (((Cholesky.new : Cholesky ℝ).dec Real.sqrt (fun x y => x / y) (fun _ _ => 0) exA).solve
      (fun x y => x / y) exb).get 0 ≠ 0.5 ∧
    (4 : ℝ) * 0.5 + 2 * 1.5 ≠ 6 := by
  have h := (exA_solve (fun x y => x / y) (fun _ _ _ => rfl) (fun _ _ => 0) Cholesky.new).2.1
  refine ⟨h, ?_, ?_⟩
  · rw [h]; norm_num
  · norm_num

/-- C11, amended. Concrete solve scenario, real path, exact arithmetic: after `dec` of
`A = [[4,2],[2,3]]`, `solve` applied to `b = [6,5]` returns `x = [1,1]`, and this `x`
satisfies `4*x0 + 2*x1 = 6` and `2*x0 + 3*x1 = 5`. -/
theorem solve_concrete (div : ℝ → ℝ → ℝ) (hdiv : ExactDiv div) (init : ℕ → ℕ → ℝ)
    (c : Cholesky ℝ) :
    ((c.dec Real.sqrt div init exA).solve div exb).dim = 2 ∧
    ((c.dec Real.sqrt div init exA).solve div exb).get 0 = 1 ∧
    ((c.dec Real.sqrt div init exA).solve div exb).get 1 = 1 ∧
    4 * ((c.dec Real.sqrt div init exA).solve div exb).get 0
      + 2 * ((c.dec Real.sqrt div init exA).solve div exb).get 1 = 6 ∧
    2 * ((c.dec Real.sqrt div init exA).solve div exb).get 0
      + 3 * ((c.dec Real.sqrt div init exA).solve div exb).get 1 = 5 := by
  obtain ⟨h1, h2, h3⟩ := exA_solve div hdiv init c
  refine ⟨h1, h2, h3, ?_, ?_⟩ <;> rw [h2, h3] <;> norm_num

/-- Witness of the amended C11 with the division of `ℝ`, on a fresh object. -/
theorem solve_concrete_witness :
    (((Cholesky.new : Cholesky ℝ).dec Real.sqrt (fun x y => x / y) (fun _ _ => 0) exA).solve
      (fun x y => x / y) exb).get 0 = 1 ∧
    (((Cholesky.new : Cholesky ℝ).dec Real.sqrt (fun x y => x / y) (fun _ _ => 0) exA).solve
      (fun x y => x / y) exb).get 1 = 1 :=
  ⟨(solve_concrete (fun x y => x / y) (fun _ _ _ => rfl) (fun _ _ => 0) Cholesky.new).2.1,
    (solve_concrete (fun x y => x / y) (fun _ _ _ => rfl) (fun _ _ => 0)
      Cholesky.new).2.2.1⟩

/-- C12. Matrix solve is column-wise vector solve: for every factor with `n` rows and every
matrix `B` with `n` rows, `solve(B)` has the shape of `B` and, for every column `j < nx`,
column `j` of `solve(B)` is `solve(column j of B)` of the vector overload; hence column `j`
of the result is the same for two matrices with the same column `j`.  The division is
arbitrary. -/
theorem solveM_columnwise (K : Type) [Field K] (c : Cholesky K) (n : ℕ)
    (hn : c.getL.rows = n) (div : K → K → K) :
    (∀ B : Mat K, B.rows = n →
      (c.solveM div B).rows = n ∧ (c.solveM div B).cols = B.cols ∧
      ∀ j, j < B.cols → (c.solveM div B).col j = c.solve div (B.col j)) ∧
    (∀ B D : Mat K, B.rows = n → D.rows = n → ∀ j, j < B.cols → j < D.cols →
      B.col j = D.col j → (c.solveM div B).col j = (c.solveM div D).col j) := by
  have hn' : c.L.rows = n := hn
  have key : ∀ B : Mat K, B.rows = n → ∀ j, j < B.cols →
      (c.solveM div B).col j = c.solve div (B.col j) := by
    intro B hB j hj
    have e1 : c.solveM div B = backSubM div c.L n B.cols (forwardSubM div c.L n B.cols B) := by
      simp [Cholesky.solveM, hn', hB]
    have e2 : c.solve div (B.col j) = backSub div c.L n (forwardSub div c.L n (B.col j)) := by
      simp [Cholesky.solve, hn', Mat.col, hB]
    rw [e1, e2, backSubM_col div c.L n B.cols _ j hj, forwardSubM_col div c.L n B.cols B j hj]
  refine ⟨fun B hB => ⟨?_, ?_, key B hB⟩, fun B D hB hD j hjB hjD h => ?_⟩
  · have e1 : c.solveM div B = backSubM div c.L n B.cols (forwardSubM div c.L n B.cols B) := by
      simp [Cholesky.solveM, hn', hB]
    rw [e1, (backSubM_shape _ _ _ _ _).1, (forwardSubM_shape _ _ _ _ _).1, hB]
  · have e1 : c.solveM div B = backSubM div c.L n B.cols (forwardSubM div c.L n B.cols B) := by
      simp [Cholesky.solveM, hn', hB]
    rw [e1, (backSubM_shape _ _ _ _ _).2, (forwardSubM_shape _ _ _ _ _).2]
  · rw [key B hB j hjB, key D hD j hjD, h]

/-- Witness of C12: the factor of `[[4,2],[2,3]]` and the right-hand sides `[[4,2],[2,5]]`,
column `1`. -/
theorem solveM_columnwise_witness :
    (((Cholesky.new : Cholesky ℝ).dec Real.sqrt (fun x y => x / y) (fun _ _ => 0) exA).solveM
      (fun x y => x / y) exP).col 1
    = ((Cholesky.new : Cholesky ℝ).dec Real.sqrt (fun x y => x / y) (fun _ _ => 0) exA).solve
      (fun x y => x / y) ((exP : Mat ℝ).col 1) :=
  ((solveM_columnwise ℝ
    ((Cholesky.new : Cholesky ℝ).dec Real.sqrt (fun x y => x / y) (fun _ _ => 0) exA) 2
    (exA_dec (fun x y => x / y) (fun _ _ _ => rfl) (fun _ _ => 0) Cholesky.new).2.1
    (fun x y => x / y)).1 exP rfl).2.2 1 (by decide)


/-- C13. Complex substitution, exact complex arithmetic: for every `n × n` lower triangular
complex factor `L` whose diagonal entries are real and non-zero and every complex vector `b`
of length `n`, the forward phase yields `y` with `L*y = b`, the backward phase of `SOLVE1`,
which conjugates `L[i][k]`, yields the result `x` of the complex `solve` with `Lᴴ*x = y`,
and so `L*(Lᴴ*x) = b`; `x` has length `n`. -/
theorem solveC_solves (n : ℕ) (c : Cholesky ℂ) (hrows : c.getL.rows = n)
    (hupper : ∀ r k, r < k → k < n → c.getL.get r k = 0)
    (hreal : ∀ k, k < n → (c.getL.get k k).im = 0)
    (hd : ∀ k, k < n → c.getL.get k k ≠ 0)
    (sqrt : ℝ → ℝ) (div : ℂ → ℂ → ℂ) (hdiv : ExactDiv div) (b : Vec ℂ) (hb : b.dim = n) :
    (c.solveC (complexOps sqrt div) b).dim = n ∧
    Matrix.mulVec (c.getL.toMatrix n n) ((forwardSub div c.getL n b).toFun n) = b.toFun n ∧
    Matrix.mulVec (c.getL.toMatrix n n).conjTranspose
      ((c.solveC (complexOps sqrt div) b).toFun n) = (forwardSub div c.getL n b).toFun n ∧
    Matrix.mulVec (c.getL.toMatrix n n)
      (Matrix.mulVec (c.getL.toMatrix n n).conjTranspose
        ((c.solveC (complexOps sqrt div) b).toFun n)) = b.toFun n := by
  have hrows' : c.L.rows = n := hrows
  have e : c.solveC (complexOps sqrt div) b = SOLVE1 (complexOps sqrt div) c.L n b := by
    simp [Cholesky.solveC, hrows', hb]
  have hfw : Matrix.mulVec (c.getL.toMatrix n n) ((forwardSub div c.getL n b).toFun n)
      = b.toFun n := by
    refine (toMatrix_mulVec c.getL _ b n).mpr (fun r hr => ?_)
    rw [sum_range_of_zero (k := r + 1) (by omega) (fun i h1 h2 => by
      rw [hupper r i (by omega) h2, zero_mul])]
    exact forwardSub_solves hdiv c.getL n b hd r hr
  have hbw : Matrix.mulVec (c.getL.toMatrix n n).conjTranspose
      ((c.solveC (complexOps sqrt div) b).toFun n) = (forwardSub div c.getL n b).toFun n := by
    ext r
    have h := @SOLVE1_solves sqrt div hdiv c.L n b hd hreal r.val r.isLt
    rw [← sum_Ico_of_zero (k := r.val) (m := n) (fun i hi => by
      have hz : c.L.get i r.val = 0 := hupper i r.val hi r.isLt
      rw [hz, map_zero, zero_mul]),
      ← Fin.sum_univ_eq_sum_range
        (fun i => (starRingEnd ℂ) (c.L.get i r.val)
          * (SOLVE1 (complexOps sqrt div) c.L n b).get i) n] at h
    rw [e]
    simpa [Matrix.mulVec, Matrix.dotProduct, Mat.toMatrix, Vec.toFun,
      Matrix.conjTranspose_apply, Cholesky.getL] using h
  refine ⟨?_, hfw, hbw, ?_⟩
  · rw [e, SOLVE1_dim, hb]
  · rw [hbw, hfw]


/-- Witness of C13 at the factor `[[1,0],[i,2]]` and the right-hand side `[6,5]`. -/
theorem solveC_solves_witness :
    Matrix.mulVec (exLC.toMatrix 2 2)
      (Matrix.mulVec (exLC.toMatrix 2 2).conjTranspose
        (((({ spd := true, L := exLC } : Cholesky ℂ)).solveC
          (complexOps Real.sqrt (fun x y => x / y)) exb).toFun 2)) = (exb : Vec ℂ).toFun 2 :=
  (solveC_solves 2 { spd := true, L := exLC } rfl
    (fun r k hrk hk => by
      interval_cases k
      · omega
      · interval_cases r
        simp [Cholesky.getL, exLC])
    (fun k hk => by interval_cases k <;> simp [Cholesky.getL, exLC])
    (fun k hk => by interval_cases k <;> simp [Cholesky.getL, exLC])
    Real.sqrt (fun x y => x / y) (fun _ _ _ => rfl) exb rfl).2.2.2

/-- C14. Division safety under the flag: for every square matrix `A`, if `isSpd()` is true
after `dec(A)` then every diagonal entry `L[k][k]`, `k < n`, of the factor is strictly
positive (in the complex path: a real number, strictly positive), hence non-zero: the
divisors of `dec` and of both `solve` overloads.  The division is arbitrary. -/
theorem dec_flag_divisors_pos (n : ℕ) :
    (∀ A : Mat ℝ, A.rows = n → A.cols = n → ∀ (div : ℝ → ℝ → ℝ) (init : ℕ → ℕ → ℝ)
      (c : Cholesky ℝ), (c.dec Real.sqrt div init A).isSpd = true →
      ∀ k, k < n → 0 < (c.dec Real.sqrt div init A).getL.get k k ∧
        (c.dec Real.sqrt div init A).getL.get k k ≠ 0) ∧
    (∀ A : Mat ℂ, A.rows = n → A.cols = n → ∀ (div : ℂ → ℂ → ℂ) (init : ℕ → ℕ → ℂ)
      (c : Cholesky ℂ), (c.decC (complexOps Real.sqrt div) init A).isSpd = true →
      ∀ k, k < n → 0 < ((c.decC (complexOps Real.sqrt div) init A).getL.get k k).re ∧
        ((c.decC (complexOps Real.sqrt div) init A).getL.get k k).im = 0 ∧
        (c.decC (complexOps Real.sqrt div) init A).getL.get k k ≠ 0) := by
  constructor
  · intro A hr hc div init c hspd k hk
    obtain ⟨-, -, h3, h4⟩ := dec_square Real.sqrt div init c A (hr.trans hc.symm)
    rw [hc] at h3 h4
    have hp := ((h3 k hk).diag_pos ((h4.mp hspd) k hk).2).1
    exact ⟨hp, ne_of_gt hp⟩
  · intro A hr hc div init c hspd k hk
    obtain ⟨-, -, h3, h4⟩ := decC_square (complexOps Real.sqrt div) init c A
      (hr.trans hc.symm)
    rw [hc] at h3 h4
    have hp : 0 < cpivot (complexOps Real.sqrt div) A
        (c.decC (complexOps Real.sqrt div) init A).L k := ((h4.mp hspd) k hk).2.2
    have e : (c.decC (complexOps Real.sqrt div) init A).getL.get k k
        = ((Real.sqrt (cpivot (complexOps Real.sqrt div) A
            (c.decC (complexOps Real.sqrt div) init A).L k) : ℝ) : ℂ) := by
      rw [Cholesky.getL, (h3 k hk).2.1, if_pos hp]
      rfl
    have hs := Real.sqrt_pos.2 hp
    rw [e]
    refine ⟨by simpa using hs, by simp, ?_⟩
    exact Complex.ofReal_ne_zero.mpr (ne_of_gt hs)

/-- Witness of C14 at `[[4,2],[2,3]]`, whose flag is true. -/
theorem dec_flag_divisors_pos_witness :
    ∀ k, k < 2 →
      0 < ((Cholesky.new : Cholesky ℝ).dec Real.sqrt (fun x y => x / y) (fun _ _ => 0)
        exA).getL.get k k ∧
      ((Cholesky.new : Cholesky ℝ).dec Real.sqrt (fun x y => x / y) (fun _ _ => 0)
        exA).getL.get k k ≠ 0 :=
  (dec_flag_divisors_pos 2).1 exA rfl rfl (fun x y => x / y) (fun _ _ => 0) Cholesky.new
    (exA_dec (fun x y => x / y) (fun _ _ _ => rfl) (fun _ _ => 0) Cholesky.new).1

/-- C15 as stated fails on `A = [[0,1],[1,1]]`: the first pivot is zero, so `L[1][0]` is the
result of the division `1 / 0`, which exact arithmetic leaves unspecified; with two exact
divisions that return `0` (real) and `i` (complex) on a zero divisor, the complex factor is
not the embedding of the real factor. -/
theorem complex_agrees_with_real_counterexample :
    ExactDiv (fun x y : ℝ => x / y) ∧
    ExactDiv (fun x y : ℂ => if y = 0 then Complex.I else x / y) ∧
    ((Cholesky.new : Cholesky ℂ).decC
        (complexOps Real.sqrt (fun x y => if y = 0 then Complex.I else x / y))
        (fun _ _ => 0) ((exZ : Mat ℝ).map Complex.ofReal)).getL.get 1 0
      ≠ ((((Cholesky.new : Cholesky ℝ).dec Real.sqrt (fun x y => x / y) (fun _ _ => 0)
        exZ).getL.get 1 0 : ℝ) : ℂ) := by
  obtain ⟨h1, h2⟩ := exZ_dec (fun x y => x / y)
    (fun x y => if y = 0 then Complex.I else x / y) (fun _ _ => 0) (fun _ _ => 0)
    Cholesky.new Cholesky.new
  refine ⟨fun _ _ _ => rfl, fun x y hy => if_neg hy, ?_⟩
  rw [Cholesky.getL, Cholesky.getL, h1, h2]
  simp [Complex.ext_iff]

/-- C15, amended. Real/complex agreement in exact arithmetic (square root exact on the
non-negative reals, divisions exact on non-zero divisors): for every square real matrix `A`,
the complex `dec` applied to `A` embedded in `ℂ` yields the same flag; it yields, as factor,
the embedding of the real factor whenever `dec` divides by no zero, that is whenever every
diagonal entry `L[k][k]` with `k+1 < n` of the real factor is non-zero, in particular
whenever the flag is true; and for every real factor with non-zero diagonal entries and real
right-hand side of matching length the complex `solve` returns the embedding of the real
`solve`. -/
theorem complex_agrees_with_real (sqrt : ℝ → ℝ) (hs : ExactSqrt sqrt) (div : ℝ → ℝ → ℝ)
    (divC : ℂ → ℂ → ℂ) (hdiv : ExactDiv div) (hdivC : ExactDiv divC) :
    (∀ (n : ℕ) (A : Mat ℝ), A.rows = n → A.cols = n → ∀ (init : ℕ → ℕ → ℝ)
      (initC : ℕ → ℕ → ℂ) (c : Cholesky ℝ) (cC : Cholesky ℂ),
      (cC.decC (complexOps sqrt divC) initC (A.map Complex.ofReal)).isSpd
        = (c.dec sqrt div init A).isSpd ∧
      ((∀ k, k + 1 < n → (c.dec sqrt div init A).getL.get k k ≠ 0) →
        (cC.decC (complexOps sqrt divC) initC (A.map Complex.ofReal)).getL.Same
          ((c.dec sqrt div init A).getL.map Complex.ofReal)) ∧
      ((c.dec sqrt div init A).isSpd = true →
        (cC.decC (complexOps sqrt divC) initC (A.map Complex.ofReal)).getL.Same
          ((c.dec sqrt div init A).getL.map Complex.ofReal))) ∧
    (∀ (c : Cholesky ℝ) (b : Vec ℝ), b.dim = c.getL.rows →
      (∀ k, k < c.getL.rows → c.getL.get k k ≠ 0) →
      ({ spd := c.spd, L := c.getL.map Complex.ofReal } : Cholesky ℂ).solveC
        (complexOps sqrt divC) (b.map Complex.ofReal)
      = (c.solve div b).map Complex.ofReal) := by
  constructor
  · intro n A hr hc init initC c cC
    obtain ⟨h1, h2, h3, h4⟩ := dec_square sqrt div init c A (hr.trans hc.symm)
    obtain ⟨g1, g2, g3, g4⟩ := decC_square (complexOps sqrt divC) initC cC
      (A.map Complex.ofReal) (hr.trans hc.symm)
    have hcC : (A.map Complex.ofReal).cols = n := hc
    rw [hc] at h1 h2 h3 h4
    rw [hcC] at g1 g2 g3 g4
    have key := cRowOK_real hdiv hdivC h3 g3
    have hdiag : ∀ j, j < n → 0 < pivot A (c.dec sqrt div init A).L j →
        (c.dec sqrt div init A).L.get j j ≠ 0 :=
      fun j hj hp => ne_of_gt (((h3 j hj).of_exactSqrt hs).diag_pos hp).1
    have e1 : ∀ j, (complexOps sqrt divC).imag ((A.map Complex.ofReal).get j j) = 0 := by
      intro j
      simp [complexOps, Mat.map]
    have e2 : ∀ j, (∀ k, k < j → (A.map Complex.ofReal).get k j
        = (complexOps sqrt divC).conj ((A.map Complex.ofReal).get j k))
        ↔ ∀ k, k < j → A.get k j = A.get j k := by
      intro j
      refine forall_congr' (fun k => forall_congr' (fun _ => ?_))
      simp [complexOps, Mat.map]
    have same : (∀ k, k + 1 < n → (c.dec sqrt div init A).L.get k k ≠ 0) →
        (cC.decC (complexOps sqrt divC) initC (A.map Complex.ofReal)).getL.Same
          ((c.dec sqrt div init A).getL.map Complex.ofReal) := by
      intro hnz
      refine ⟨g1.trans h1.symm, g2.trans h2.symm, fun i j hi hj => ?_⟩
      have hi' : i < n := by rw [← g1]; exact hi
      have hj' : j < n := by rw [← g2]; exact hj
      exact (key i hi' (fun k hk => hnz k (by omega))).1 j hj'
    have flagR : (c.dec sqrt div init A).isSpd = true →
        ∀ k, k < n → (c.dec sqrt div init A).L.get k k ≠ 0 :=
      fun h k hk => hdiag k hk ((h4.mp h) k hk).2
    refine ⟨?_, same, fun h => same (fun k hk => flagR h k (by omega))⟩
    rw [Cholesky.isSpd, Bool.eq_iff_iff, g4]
    constructor
    · intro hC
      have hpos : ∀ j, j < n → 0 < pivot A (c.dec sqrt div init A).L j := by
        intro j
        induction j using Nat.strong_induction_on with
        | _ j ih =>
          intro hj
          rw [← (key j hj (fun k hk => hdiag k (by omega) (ih k hk (by omega)))).2]
          exact (hC j hj).2.2
      exact h4.mpr (fun j hj => ⟨(e2 j).mp (hC j hj).2.1, hpos j hj⟩)
    · intro hR
      have hall := h4.mp hR
      intro j hj
      refine ⟨e1 j, (e2 j).mpr (hall j hj).1, ?_⟩
      rw [(key j hj (fun k hk => hdiag k (by omega) (hall k (by omega)).2)).2]
      exact (hall j hj).2
  · intro c b hb hd
    have hb' : b.dim = c.L.rows := hb
    have e1 : ({ spd := c.spd, L := c.getL.map Complex.ofReal } : Cholesky ℂ).solveC
        (complexOps sqrt divC) (b.map Complex.ofReal)
        = SOLVE1 (complexOps sqrt divC) (c.L.map Complex.ofReal) c.L.rows
            (b.map Complex.ofReal) := by
      simp [Cholesky.solveC, Cholesky.getL, Mat.map, Vec.map, hb']
    have e2 : c.solve div b = backSub div c.L c.L.rows (forwardSub div c.L c.L.rows b) := by
      simp [Cholesky.solve, hb']
    rw [e1, e2]
    exact SOLVE1_real hdiv hdivC c.L c.L.rows hd b

/-- Witness of the amended C15 at `A = [[4,2],[2,3]]`, whose flag is true, with the complex
division that returns `i` on a zero divisor. -/
theorem complex_agrees_with_real_witness :
    ((Cholesky.new : Cholesky ℂ).decC
      (complexOps Real.sqrt (fun x y => if y = 0 then Complex.I else x / y))
      (fun _ _ => 0) ((exA : Mat ℝ).map Complex.ofReal)).getL.Same
    (((Cholesky.new : Cholesky ℝ).dec Real.sqrt (fun x y => x / y) (fun _ _ => 0)
      exA).getL.map Complex.ofReal) :=
  ((complex_agrees_with_real Real.sqrt (fun _ _ => rfl) (fun x y => x / y)
    (fun x y => if y = 0 then Complex.I else x / y) (fun _ _ _ => rfl)
    (fun _ _ hy => if_neg hy)).1 2 exA rfl rfl (fun _ _ => 0) (fun _ _ => 0)
    Cholesky.new Cholesky.new).2.2
    (exA_dec (fun x y => x / y) (fun _ _ _ => rfl) (fun _ _ => 0) Cholesky.new).1

/-- C16. History independence on square input: for every square `n × n` matrix `A`, the
state (flag, factor) after `dec(A)` is the same whatever the previous state of the object
and the initial contents of the freshly allocated matrix, in the real path and in the
complex path; calling `dec(A)` twice gives the same state as calling it once.  The scalar
primitives are arbitrary. -/
theorem dec_history_independent (α K : Type) [LinearOrderedField α] [Field K]
    [DecidableEq K] (n : ℕ) :
    (∀ A : Mat α, A.rows = n → A.cols = n → ∀ (sqrt : α → α) (div : α → α → α)
      (init init' : ℕ → ℕ → α) (c c' : Cholesky α),
      (c.dec sqrt div init A).Same (c'.dec sqrt div init' A) ∧
      ((c.dec sqrt div init A).dec sqrt div init' A).Same (c.dec sqrt div init A)) ∧
    (∀ A : Mat K, A.rows = n → A.cols = n → ∀ (O : ComplexOps α K)
      (init init' : ℕ → ℕ → K) (c c' : Cholesky K),
      (c.decC O init A).Same (c'.decC O init' A) ∧
      ((c.decC O init A).decC O init' A).Same (c.decC O init A)) := by
  have real : ∀ A : Mat α, A.rows = n → A.cols = n → ∀ (sqrt : α → α) (div : α → α → α)
      (init init' : ℕ → ℕ → α) (c c' : Cholesky α),
      (c.dec sqrt div init A).Same (c'.dec sqrt div init' A) := by
    intro A hr hc sqrt div init init' c c'
    obtain ⟨h1, h2, h3, h4⟩ := dec_square sqrt div init c A (hr.trans hc.symm)
    obtain ⟨g1, g2, g3, g4⟩ := dec_square sqrt div init' c' A (hr.trans hc.symm)
    rw [hc] at h1 h2 h3 h4 g1 g2 g3 g4
    have key := rowOK_unique (fun _ _ _ _ => rfl) h3 g3
    refine ⟨?_, h1.trans g1.symm, h2.trans g2.symm, fun i j hi hj => ?_⟩
    · rw [Bool.eq_iff_iff, h4, g4]
      refine forall_congr' (fun j => forall_congr' (fun hj => ?_))
      rw [pivot_eq_of_same hj rfl (key j hj)]
    · exact key i (by rw [← h1]; exact hi) j (by rw [← h2]; exact hj)
  have cplx : ∀ A : Mat K, A.rows = n → A.cols = n → ∀ (O : ComplexOps α K)
      (init init' : ℕ → ℕ → K) (c c' : Cholesky K),
      (c.decC O init A).Same (c'.decC O init' A) := by
    intro A hr hc O init init' c c'
    obtain ⟨h1, h2, h3, h4⟩ := decC_square O init c A (hr.trans hc.symm)
    obtain ⟨g1, g2, g3, g4⟩ := decC_square O init' c' A (hr.trans hc.symm)
    rw [hc] at h1 h2 h3 h4 g1 g2 g3 g4
    have key := cRowOK_unique h3 g3
    refine ⟨?_, h1.trans g1.symm, h2.trans g2.symm, fun i j hi hj => ?_⟩
    · rw [Bool.eq_iff_iff, h4, g4]
      refine forall_congr' (fun j => forall_congr' (fun hj => ?_))
      rw [cpivot_eq_of_same hj (key j hj)]
    · exact key i (by rw [← h1]; exact hi) j (by rw [← h2]; exact hj)
  exact ⟨fun A hr hc sqrt div init init' c c' =>
      ⟨real A hr hc sqrt div init init' c c', real A hr hc sqrt div init' init _ c⟩,
    fun A hr hc O init init' c c' =>
      ⟨cplx A hr hc O init init' c c', cplx A hr hc O init' init _ c⟩⟩

/-- Witness of C16 at `[[1,2],[2,1]]`: a fresh object with fresh contents `0`, and the
object that has factorized `[[4,2],[2,3]]` with fresh contents `7`. -/
theorem dec_history_independent_witness :
    ((Cholesky.new : Cholesky ℝ).dec Real.sqrt (fun x y => x / y) (fun _ _ => 0) exB).Same
      (((Cholesky.new : Cholesky ℝ).dec Real.sqrt (fun x y => x / y) (fun _ _ => 0) exA).dec
        Real.sqrt (fun x y => x / y) (fun _ _ => 7) exB) :=
  ((dec_history_independent ℝ ℂ 2).1 exB rfl rfl Real.sqrt (fun x y => x / y)
    (fun _ _ => 0) (fun _ _ => 7) Cholesky.new
    ((Cholesky.new : Cholesky ℝ).dec Real.sqrt (fun x y => x / y) (fun _ _ => 0) exA)).1

/-- C17. The factor reads only the lower triangle of the input (real path): for every two
square `n × n` matrices `A` and `B` with `A[j][k] = B[j][k]` for all `k ≤ j`, `dec(A)` and
`dec(B)` produce the same factor; the entries above the diagonal can change the flag only.
The scalar primitives, the previous states and the fresh contents are arbitrary. -/
theorem dec_reads_lower_triangle (α : Type) [LinearOrderedField α] (n : ℕ) (A B : Mat α)
    (hAr : A.rows = n) (hAc : A.cols = n) (hBr : B.rows = n) (hBc : B.cols = n)
    (hlow : ∀ j k, k ≤ j → j < n → A.get j k = B.get j k)
    (sqrt : α → α) (div : α → α → α) (init init' : ℕ → ℕ → α) (c c' : Cholesky α) :
    (c.dec sqrt div init A).getL.Same (c'.dec sqrt div init' B).getL := by
  obtain ⟨h1, h2, h3, -⟩ := dec_square sqrt div init c A (hAr.trans hAc.symm)
  obtain ⟨g1, g2, g3, -⟩ := dec_square sqrt div init' c' B (hBr.trans hBc.symm)
  rw [hAc] at h1 h2 h3
  rw [hBc] at g1 g2 g3
  have key := rowOK_unique hlow h3 g3
  exact ⟨h1.trans g1.symm, h2.trans g2.symm,
    fun i j hi hj => key i (by rw [← h1]; exact hi) j (by rw [← h2]; exact hj)⟩

/-- Witness of C17 at `[[4,2],[2,3]]` and `[[4,7],[2,3]]`, equal on and below the
diagonal. -/
theorem dec_reads_lower_triangle_witness :
    ((Cholesky.new : Cholesky ℝ).dec Real.sqrt (fun x y => x / y) (fun _ _ => 0) exA).getL.Same
      ((Cholesky.new : Cholesky ℝ).dec Real.sqrt (fun x y => x / y) (fun _ _ => 0) exU).getL :=
  dec_reads_lower_triangle ℝ 2 exA exU rfl rfl rfl rfl
    (fun j k hkj hj => by
      interval_cases j
      · interval_cases k
        simp [exA, exU]
      · interval_cases k <;> simp [exA, exU])
    Real.sqrt (fun x y => x / y) (fun _ _ => 0) (fun _ _ => 0) Cholesky.new Cholesky.new

/-- C18. Reverse round trip, real path, exact arithmetic: for every `n × n` lower triangular
real matrix `L0` with strictly positive diagonal entries and `A = L0*L0'`, `dec(A)` yields
`isSpd() = true` and the `n × n` factor `getL() = L0`. -/
theorem dec_round_trip (n : ℕ) (L0 A : Mat ℝ) (hr : A.rows = n) (hc : A.cols = n)
    (hupper : ∀ r k, r < k → k < n → L0.get r k = 0)
    (hpos : ∀ k, k < n → 0 < L0.get k k)
    (hA : A.toMatrix n n = L0.toMatrix n n * (L0.toMatrix n n).transpose)
    (div : ℝ → ℝ → ℝ) (hdiv : ExactDiv div) (init : ℕ → ℕ → ℝ) (c : Cholesky ℝ) :
    (c.dec Real.sqrt div init A).isSpd = true ∧
    (c.dec Real.sqrt div init A).getL.rows = n ∧
    (c.dec Real.sqrt div init A).getL.cols = n ∧
    (c.dec Real.sqrt div init A).getL.toMatrix n n = L0.toMatrix n n := by
  obtain ⟨h1, h2, h3, h4⟩ := dec_square Real.sqrt div init c A (hr.trans hc.symm)
  rw [hc] at h1 h2 h3 h4
  have hent := (toMatrix_mul_transpose L0 A n).mp hA.symm
  have h0 := rowOK_of_factor hdiv hupper hpos hent
  have key := rowOK_unique (fun _ _ _ _ => rfl) h3 (fun j hj => (h0 j hj).1)
  have hsym : ∀ r k, r < n → k < n → A.get r k = A.get k r := by
    intro r k hr' hk
    rw [← hent r k hr' hk, ← hent k r hk hr']
    exact sum_congr rfl (fun i _ => mul_comm _ _)
  refine ⟨h4.mpr (fun j hj => ⟨fun k hk => hsym k j (by omega) hj, ?_⟩), h1, h2, ?_⟩
  · rw [pivot_eq_of_same hj rfl (key j hj), (h0 j hj).2]
    exact mul_pos (hpos j hj) (hpos j hj)
  · ext i j
    exact key i.val i.isLt j.val j.isLt

/-- Witness of C18 at `L0 = [[2,0],[1,2]]` and `A = [[4,2],[2,5]]`. -/
theorem dec_round_trip_witness :
    ((Cholesky.new : Cholesky ℝ).dec Real.sqrt (fun x y => x / y) (fun _ _ => 0) exP).isSpd
      = true ∧
    ((Cholesky.new : Cholesky ℝ).dec Real.sqrt (fun x y => x / y) (fun _ _ => 0)
      exP).getL.toMatrix 2 2 = (exL : Mat ℝ).toMatrix 2 2 :=
  ⟨(dec_round_trip 2 exL exP rfl rfl
      (fun r k hrk hk => by
        interval_cases k
        · omega
        · interval_cases r
          simp [exL])
      (fun k hk => by interval_cases k <;> simp [exL])
      (by
        ext i j
        fin_cases i <;> fin_cases j <;>
          simp [Mat.toMatrix, exL, exP, Matrix.mul_apply, Fin.sum_univ_two] <;> norm_num)
      (fun x y => x / y) (fun _ _ _ => rfl) (fun _ _ => 0) Cholesky.new).1,
    (dec_round_trip 2 exL exP rfl rfl
      (fun r k hrk hk => by
        interval_cases k
        · omega
        · interval_cases r
          simp [exL])
      (fun k hk => by interval_cases k <;> simp [exL])
      (by
        ext i j
        fin_cases i <;> fin_cases j <;>
          simp [Mat.toMatrix, exL, exP, Matrix.mul_apply, Fin.sum_univ_two] <;> norm_num)
      (fun x y => x / y) (fun _ _ _ => rfl) (fun _ _ => 0) Cholesky.new).2.2.2⟩

end splab
